import Mathlib

/-!
# handler: request dispatch, pipeline and parameter validation

A shallow embedding of `handler.go` (package `handler`) and a verification of
its specification.

Conventions of the embedding

* A Go `string` is a list of Unicode characters (`Str`); `len` is its UTF-8
  byte length, as in Go.
* A Go `error` value is its message; `none` is `nil`.
* A run-time panic is the `Except.error` side of `Except Panic`.
* The standard library functions the code calls (`strings.Split`,
  `strings.Contains`, `strings.TrimSpace`, `strings.ToUpper`, `strconv.Atoi`,
  `Request.FormValue`, `http.Error`) are embedded from their documented
  behaviour; `int` is 64 bits wide.
* The rune mapping `unicode.ToUpper` is a parameter `up` of everything that
  upper-cases a method; the statements hold for every such mapping.
* A Go map is the list of its entries. The order in which `range` visits a map
  is left open by Go: the position where the iteration starts is a parameter
  `pick`, and the statements hold for every `pick`.
* `ServeHTTP` is instrumented with the list of the calls it makes (`Call`).
-/

set_option autoImplicit false

namespace Handler

/-! ## Strings -/

/-- A Go string, as the sequence of its characters. -/
abbrev Str := List Char

/-- Go `len(s)`: the number of bytes of the UTF-8 encoding of `s`. -/
def len : Str → Nat
  | [] => 0
  | c :: cs => c.utf8Size + len cs

/-- Splitting at one separator character: `strings.Split(s, sep)` for a
one-character `sep`. The result always has at least one field. -/
def Split (sep : Char) : Str → List Str
  | [] => [[]]
  | c :: cs =>
    if c = sep then [] :: Split sep cs
    else
      match Split sep cs with
      | [] => [[c]]
      | f :: fs => (c :: f) :: fs

/-- Whether `p` is an initial segment of `s` (`strings.HasPrefix`). -/
def startsWith : Str → Str → Bool
  | _, [] => true
  | [], _ :: _ => false
  | c :: cs, d :: ds => c == d && startsWith cs ds

/-- Substring test, `strings.Contains(s, sub)`. -/
def Contains : Str → Str → Bool
  | [], sub => startsWith [] sub
  | c :: cs, sub => startsWith (c :: cs) sub || Contains cs sub

/-- White space as `unicode.IsSpace` defines it. -/
def isSpace (c : Char) : Bool :=
  let n := c.toNat
  n = 0x09 || n = 0x0A || n = 0x0B || n = 0x0C || n = 0x0D || n = 0x20 ||
  n = 0x85 || n = 0xA0 || n = 0x1680 || (0x2000 ≤ n && n ≤ 0x200A) ||
  n = 0x2028 || n = 0x2029 || n = 0x202F || n = 0x205F || n = 0x3000

/-- Removal of leading and trailing white space, `strings.TrimSpace`. -/
def TrimSpace (s : Str) : Str :=
  (((s.dropWhile isSpace).reverse).dropWhile isSpace).reverse

/-- Mapping of every character to upper case, `strings.ToUpper`; the rune
mapping `unicode.ToUpper` of the standard library is the parameter `up`. -/
def ToUpper (up : Char → Char) (s : Str) : Str := s.map up

/-! ## strconv.Atoi -/

/-- The largest `uint64`. -/
def maxUint64 : Nat := 2 ^ 64 - 1

/-- The three outcomes of a conversion: a value, a syntax error, a range
error. -/
inductive NumErr where
  | none
  | badSyntax
  | outOfRange
  deriving DecidableEq, Repr

/-- Whether `c` is a decimal digit. -/
def isDigit (c : Char) : Bool := 48 ≤ c.toNat && c.toNat ≤ 57

/-- The digit loop of the fast path of `Atoi`: every byte must be a decimal
digit, and the value is accumulated in `n`. -/
def atoiFast : Nat → Str → Option Nat
  | n, [] => some n
  | n, c :: cs => if isDigit c then atoiFast (n * 10 + (c.toNat - 48)) cs else none

/-- The digit loop of `strconv.ParseUint(s, 10, 64)`: a character that is no
digit is a syntax error; a value that leaves `uint64` is a range error,
reported at once with the largest value, the rest of the text unread. -/
def parseUintLoop : Nat → Str → Nat × NumErr
  | n, [] => (n, NumErr.none)
  | n, c :: cs =>
    if isDigit c then
      if n ≥ maxUint64 / 10 + 1 then (maxUint64, NumErr.outOfRange)
      else if n * 10 + (c.toNat - 48) > maxUint64 then (maxUint64, NumErr.outOfRange)
      else parseUintLoop (n * 10 + (c.toNat - 48)) cs
    else (0, NumErr.badSyntax)

/-- Embedding of `strconv.ParseUint(s, 10, 64)`. -/
def ParseUint (s : Str) : Nat × NumErr :=
  match s with
  | [] => (0, NumErr.badSyntax)
  | _ => parseUintLoop 0 s

/-- Embedding of `strconv.ParseInt(s, 10, 0)`: an optional sign, then
`ParseUint`; a syntax error gives 0, a range error the nearest `int`. -/
def ParseInt (s : Str) : Int × NumErr :=
  match s with
  | [] => (0, NumErr.badSyntax)
  | c :: cs =>
    let neg := c = '-'
    let body := if c = '+' ∨ c = '-' then cs else c :: cs
    match ParseUint body with
    | (_, NumErr.badSyntax) => (0, NumErr.badSyntax)
    | (un, _) =>
      if ¬ neg ∧ un ≥ 2 ^ 63 then (((2 ^ 63 - 1 : Nat) : Int), NumErr.outOfRange)
      else if neg ∧ un > 2 ^ 63 then (-((2 ^ 63 : Nat) : Int), NumErr.outOfRange)
      else (if neg then -(un : Int) else (un : Int), NumErr.none)

/-- Embedding of `strconv.Atoi`: texts of 1 to 18 bytes take the fast path,
all others go through `ParseInt`. The result is the value and the error. -/
def Atoi (s : Str) : Int × NumErr :=
  if 0 < len s ∧ len s < 19 then
    match s with
    | [] => (0, NumErr.badSyntax)
    | c :: cs =>
      let body := if c = '-' ∨ c = '+' then cs else c :: cs
      if body = [] then (0, NumErr.badSyntax)
      else
        match atoiFast 0 body with
        | none => (0, NumErr.badSyntax)
        | some n => (if c = '-' then -(n : Int) else (n : Int), NumErr.none)
  else ParseInt s

/-- The number a text of decimal digits denotes, read from the left with
`n` the value of the digits already read. -/
def decValue (n : Nat) (s : Str) : Nat :=
  s.foldl (fun n c => n * 10 + (c.toNat - 48)) n

/-- The text of `s` after one optional leading sign. -/
def unsigned : Str → Str
  | [] => []
  | c :: cs => if c = '+' ∨ c = '-' then cs else c :: cs

/-- The integer literals in the words of the specification, against which
`Atoi` is compared: an optional sign followed by one or more decimal digits. -/
def intLiteral (s : Str) : Bool :=
  unsigned s ≠ [] && (unsigned s).all isDigit

/-- The integer an integer literal of the specification denotes. -/
def intLiteralValue (s : Str) : Int :=
  match s with
  | [] => 0
  | c :: _ => if c = '-' then -((decValue 0 (unsigned s) : Nat) : Int)
    else ((decValue 0 (unsigned s) : Nat) : Int)

/-! ## Requests and panics -/

/-- A run-time panic. -/
inductive Panic where
  | indexOutOfRange
  | explicit (msg : Str)
  deriving DecidableEq, Repr

deriving instance DecidableEq for Except

/-- The part of `*http.Request` the code reads: the method, the path, the
parsed form (`r.Form`, every key with its values) and the error, if any, that
`r.ParseForm()` returns. -/
structure Request where
  Method : Str
  Path : Str
  Form : Str → List Str
  ParseFormErr : Option Str

/-- First value of the form field `key`, the empty string when there is none:
`r.FormValue(key)`. -/
def Request.FormValue (r : Request) (key : Str) : Str :=
  match r.Form key with
  | [] => []
  | v :: _ => v

/-! ## validate -/

/-- The body of the inner loop of `validate`: one constraint `c` of the
parameter `name`, with `vs := strings.Split(c, "=")`. The indexing `vs[1]`
panics when `c` has no `=`. `some e` is an early `return e`. -/
def validateConstraint (r : Request) (name : Str) (c : Str) : Except Panic (Option Str) :=
  match Split '=' c with
  | [] => .error Panic.indexOutOfRange
  | key :: args =>
    if key = "max".toList then
      match args with
      | [] => .error Panic.indexOutOfRange
      | bound :: _ =>
        if (len (TrimSpace (r.FormValue name)) : Int) > (Atoi bound).1 then
          .ok (some (name ++ " can't be more than ".toList ++ bound ++ " characters".toList))
        else .ok none
    else if key = "min".toList then
      match args with
      | [] => .error Panic.indexOutOfRange
      | bound :: _ =>
        if (len (TrimSpace (r.FormValue name)) : Int) < (Atoi bound).1 then
          .ok (some (name ++ " can't be less than ".toList ++ bound ++ " characters".toList))
        else .ok none
    else if key = "numeric".toList then
      if (Atoi (r.FormValue name)).2 ≠ NumErr.none then
        .ok (some (name ++ " should be an integer string".toList))
      else .ok none
    else .ok none

/-- The inner loop of `validate`, over the comma-separated constraints. -/
def validateConstraints (r : Request) (name : Str) : List Str → Except Panic (Option Str)
  | [] => .ok none
  | c :: cs =>
    match validateConstraint r name c with
    | .error p => .error p
    | .ok (some e) => .ok (some e)
    | .ok none => validateConstraints r name cs

/-- The body of the outer loop of `validate`: one rule string `param`, with
`p := strings.Split(param, ":")`, the name `p[0]` and the constraints `p[1]`. -/
def validateParam (r : Request) (param : Str) : Except Panic (Option Str) :=
  match Split ':' param with
  | [] => .error Panic.indexOutOfRange
  | [name] =>
    if r.FormValue name = [] then .ok (some (name ++ " can't be empty".toList))
    else .ok none
  | name :: rules :: _ =>
    if r.FormValue name = [] ∧ Contains rules "empty".toList = false then
      .ok (some (name ++ " can't be empty".toList))
    else validateConstraints r name (Split ',' rules)

/-- The outer loop of `validate`, over the rule strings. -/
def validateParams (r : Request) : List Str → Except Panic (Option Str)
  | [] => .ok none
  | param :: rest =>
    match validateParam r param with
    | .error p => .error p
    | .ok (some e) => .ok (some e)
    | .ok none => validateParams r rest

/-- Embedding of `validate(r, params)`: the error of `r.ParseForm()` if there
is one, else the first error of the rules in order, else `nil`. -/
def validate (r : Request) (params : List Str) : Except Panic (Option Str) :=
  match r.ParseFormErr with
  | some e => .ok (some e)
  | none => validateParams r params

/-! ## The request pipeline -/

/-- What has been sent on an `http.ResponseWriter`: the replies in order, each
the status code handed to `WriteHeader` with the bytes handed to `Write`. -/
structure ResponseWriter where
  sent : List (Nat × Str)

/-- The two arguments `(w, r)` every collaborator receives. Both are
references in Go, so a collaborator may change either. -/
structure Exchange where
  w : ResponseWriter
  r : Request

/-- A Go `http.HandlerFunc`, by its effect on the writer and the request. -/
abbrev HandlerFunc := Exchange → Exchange

/-- Embedding of `http.Error(w, error, code)`: after setting the plain-text
headers (not modelled) it calls `w.WriteHeader(code)` and
`fmt.Fprintln(w, error)`, so the body written is the message followed by a
newline. -/
def httpError (w : ResponseWriter) (error : Str) (code : Nat) : ResponseWriter :=
  { sent := w.sent ++ [(code, error ++ ['\n'])] }

/-- Status code `http.StatusUnauthorized`. -/
def StatusUnauthorized : Nat := 401

/-- Status code `http.StatusBadRequest`. -/
def StatusBadRequest : Nat := 400

/-- The route declaration, `type handler struct`. -/
structure handler where
  Action : Str
  Method : Str
  URI : Str
  Params : List Str
  Auth : Bool
  Before : List HandlerFunc
  After : List HandlerFunc
  Do : HandlerFunc

/-- One step of `ServeHTTP` that leaves the function: a call of a
collaborator (the middlewares by their position in `Before` or `After`), of
`validate`, or of `http.Error`. -/
inductive Call where
  | auth
  | before (i : Nat)
  | validate
  | Do
  | after (i : Nat)
  | httpError (error : Str) (code : Nat)
  deriving DecidableEq, Repr

/-- Whether a call is one to a collaborator of the route: a `Before`
middleware, `Do`, or an `After` middleware. -/
def Call.ofRoute : Call → Bool
  | Call.before _ => true
  | Call.Do => true
  | Call.after _ => true
  | _ => false

/-- The state of one execution of `ServeHTTP`: the calls made so far, oldest
first, and the current writer and request. -/
structure Run where
  calls : List Call
  x : Exchange

/-- The loop `for _, m := range ms { m(w, r) }`; `i` is the position of the
first middleware of `ms` in the route's list. -/
def runMiddlewares (tag : Nat → Call) : List HandlerFunc → Nat → Run → Run
  | [], _, s => s
  | m :: ms, i, s => runMiddlewares tag ms (i + 1) { calls := s.calls ++ [tag i], x := m s.x }

/-- The call `http.Error(w, error, code)` inside a run. -/
def Run.httpError (s : Run) (error : Str) (code : Nat) : Run :=
  { calls := s.calls ++ [Call.httpError error code],
    x := { s.x with w := Handler.httpError s.x.w error code } }

/-- The tail of `ServeHTTP`: `h.Do(w, r)` and then the `After` loop. -/
def handler.serveDo (h : handler) (s : Run) : Run :=
  runMiddlewares Call.after h.After 0 { calls := s.calls ++ [Call.Do], x := h.Do s.x }

/-- Embedding of `func (h handler) ServeHTTP(w, r)`. The collaborator `auth`,
whose body the source leaves open, is a parameter: it answers with a boolean
and may change the writer and the request. -/
def handler.ServeHTTP (auth : Exchange → Bool × Exchange) (h : handler) (x : Exchange) :
    Except Panic Run :=
  let gate : Bool × Run :=
    if h.Auth then ((auth x).1, { calls := [Call.auth], x := (auth x).2 })
    else (true, { calls := [], x := x })
  if gate.1 = false then
    pure (gate.2.httpError "Unauthorized Access".toList StatusUnauthorized)
  else
    let s := runMiddlewares Call.before h.Before 0 gate.2
    if h.Params.length > 0 then
      match validate s.x.r h.Params with
      | .error p => .error p
      | .ok (some err) =>
        pure (Run.httpError { s with calls := s.calls ++ [Call.validate] } err StatusBadRequest)
      | .ok none => pure (h.serveDo { s with calls := s.calls ++ [Call.validate] })
    else pure (h.serveDo s)

/-! ## The route table -/

/-- A Go `map[string]V`, as the list of its entries. Every key occurs once;
the order of the list is not observable except through `range`. -/
abbrev GoMap (V : Type) := List (Str × V)

/-- The entry of `m` under `k`, if there is one. -/
def lookup {V : Type} : GoMap V → Str → Option V
  | [], _ => none
  | (k', v) :: rest, k => if k' = k then some v else lookup rest k

/-- The assignment `m[k] = v`. -/
def assign {V : Type} : GoMap V → Str → V → GoMap V
  | [], k, v => [(k, v)]
  | (k', v') :: rest, k, v => if k' = k then (k, v) :: rest else (k', v') :: assign rest k v

/-- The expression `m[k].Method`: a key that is absent yields the zero
`handler`, whose `Method` is the empty string. -/
def methodAt (m : GoMap handler) (k : Str) : Str :=
  match lookup m k with
  | some h => h.Method
  | none => []

/-- The pair of keys under which `NewServeMux` stores the route `h`:
`routes[h.URI][strings.ToUpper(h.Method)]`. -/
def routeKey (up : Char → Char) (h : handler) : Str × Str :=
  (h.URI, ToUpper up h.Method)

/-- The expression `routes[uri][method]`, `none` when the route is absent. -/
def entry (routes : GoMap (GoMap handler)) (uri method : Str) : Option handler :=
  match lookup routes uri with
  | some m => lookup m method
  | none => none

/-- The body of the loops of `NewServeMux`: the registration of one route. -/
def register (up : Char → Char) (routes : GoMap (GoMap handler)) (h : handler) :
    Except Panic (GoMap (GoMap handler)) :=
  let routes :=
    match lookup routes h.URI with
    | none => assign routes h.URI []
    | some _ => routes
  let method := ToUpper up h.Method
  let m := (lookup routes h.URI).getD []
  if methodAt m method ≠ [] then
    .error (Panic.explicit ("Duplicate Routes: ".toList ++ method ++ " ".toList ++ h.URI))
  else
    .ok (assign routes h.URI (assign m (ToUpper up h.Method) h))

/-- The inner loop of `NewServeMux`, over the routes of one group. -/
def registerGroup (up : Char → Char) :
    GoMap (GoMap handler) → List handler → Except Panic (GoMap (GoMap handler))
  | routes, [] => .ok routes
  | routes, h :: hs =>
    match register up routes h with
    | .error p => .error p
    | .ok routes => registerGroup up routes hs

/-- The outer loop of `NewServeMux`, over the groups. -/
def registerGroups (up : Char → Char) :
    GoMap (GoMap handler) → List (List handler) → Except Panic (GoMap (GoMap handler))
  | routes, [] => .ok routes
  | routes, group :: groups =>
    match registerGroup up routes group with
    | .error p => .error p
    | .ok routes => registerGroups up routes groups

/-- Embedding of the table construction of `NewServeMux(groups...)`: the map
`routes`, from URI to method to route, or the panic. The function then hands
every entry `(uri, m)` to the multiplexer as `mux.HandleFunc(uri, routeFunc(m))`. -/
def NewServeMux (up : Char → Char) (groups : List (List handler)) :
    Except Panic (GoMap (GoMap handler)) :=
  registerGroups up [] groups

/-- The first key that `for k := range m` visits. Go leaves the order of a map
iteration open; `pick` stands for the position the iteration starts at. -/
def rangeFirst {V : Type} (m : GoMap V) (pick : Nat) : Option Str :=
  (m.get? (pick % m.length)).map Prod.fst

/-- The route whose `ServeHTTP` the function returned by `routeFunc(m)` calls
for a request with method `method`: `m[r.Method]` when its `Method` is set,
else `m[k]` for the first key `k` of the iteration; `none` when the loop body
never runs. -/
def routeFunc.target (m : GoMap handler) (method : Str) (pick : Nat) : Option handler :=
  if methodAt m method ≠ [] then lookup m method
  else
    match rangeFirst m pick with
    | none => none
    | some k => lookup m k

/-- Embedding of the function returned by `routeFunc(m)`. -/
def routeFunc (auth : Exchange → Bool × Exchange) (m : GoMap handler) (pick : Nat)
    (x : Exchange) : Except Panic Run :=
  match routeFunc.target m x.r.Method pick with
  | some h => h.ServeHTTP auth x
  | none => .ok { calls := [], x := x }

/-! ## Sample data -/

/-- A request whose form holds the single field `key` with value `v`. -/
def formRequest (key v : Str) : Request :=
  { Method := "POST".toList, Path := "/".toList,
    Form := fun k => if k = key then [v] else [], ParseFormErr := none }

/-- A collaborator that replies with `code` and `body`. -/
def replies (code : Nat) (body : Str) : HandlerFunc :=
  fun x => { x with w := { sent := x.w.sent ++ [(code, body)] } }

/-- An auth collaborator that refuses every request. -/
def denyAll : Exchange → Bool × Exchange := fun x => (false, x)

/-- An auth collaborator that admits every request. -/
def allowAll : Exchange → Bool × Exchange := fun x => (true, x)

/-- A route behind the auth gate, with two `Before` middlewares, one rule and
one `After` middleware. -/
def profile : handler :=
  { Action := "profile".toList, Method := "POST".toList, URI := "/profile".toList,
    Params := ["bio:max=5".toList], Auth := true,
    Before := [replies 100 "first".toList, replies 100 "second".toList],
    After := [replies 100 "last".toList],
    Do := replies 200 "saved".toList }

/-- A route declared without a method on `/x`. -/
def anyMethod : handler :=
  { Action := "any".toList, Method := [], URI := "/x".toList, Params := [], Auth := false,
    Before := [], After := [], Do := replies 200 "any".toList }

/-- A second route declared without a method on `/x`. -/
def anyMethodAgain : handler :=
  { Action := "again".toList, Method := [], URI := "/x".toList, Params := [], Auth := false,
    Before := [], After := [], Do := replies 200 "again".toList }

/-- A route for `GET` on `/x`. -/
def getX : handler :=
  { Action := "show".toList, Method := "GET".toList, URI := "/x".toList, Params := [],
    Auth := false, Before := [], After := [], Do := replies 200 "show".toList }

/-- A route for `get`, in lower case, on `/x`. -/
def getLowerX : handler :=
  { Action := "list".toList, Method := "get".toList, URI := "/x".toList, Params := [],
    Auth := false, Before := [], After := [], Do := replies 200 "list".toList }

/-- A route for `POST` on `/x`. -/
def postX : handler :=
  { Action := "create".toList, Method := "POST".toList, URI := "/x".toList, Params := [],
    Auth := false, Before := [], After := [], Do := replies 201 "create".toList }

/-- A fresh exchange for a request whose form holds `key` with value `v`. -/
def exchange (key v : Str) : Exchange :=
  { w := { sent := [] }, r := formRequest key v }

/-- The route of the sign-up example, with its handler `Do` left open. -/
def signup (Do : HandlerFunc) : handler :=
  { Action := "signup".toList, Method := "POST".toList, URI := "/signup".toList,
    Params := ["email".toList, "age:numeric".toList], Auth := false,
    Before := [], After := [], Do := Do }

/-- A request to `/signup` with the form `email=<email>&age=<age>`. -/
def signupRequest (email age : Str) : Request :=
  { Method := "POST".toList, Path := "/signup".toList,
    Form := fun k =>
      if k = "email".toList then [email] else if k = "age".toList then [age] else [],
    ParseFormErr := none }

/-- The text `strings.Join(elems, sep)` for a one-character `sep`: how a list of
constraints is written in a rule. -/
def Join (sep : Char) : List Str → Str
  | [] => []
  | [c] => c
  | c :: d :: rest => c ++ sep :: Join sep (d :: rest)

/-! ## Strings: basic facts -/

theorem Split_ne_nil (sep : Char) (s : Str) : Split sep s ≠ [] := by
  induction s with
  | nil => simp [Split]
  | cons c cs ih =>
    unfold Split
    split
    · simp
    · split <;> simp

theorem Split_of_not_mem (sep : Char) (s : Str) (h : sep ∉ s) : Split sep s = [s] := by
  induction s with
  | nil => rfl
  | cons c cs ih =>
    have hc : c ≠ sep := fun e => h (e ▸ List.mem_cons_self _ _)
    have hcs : sep ∉ cs := fun e => h (List.mem_cons_of_mem _ e)
    simp [Split, hc, ih hcs]

theorem Split_append_sep (sep : Char) (a b : Str) (h : sep ∉ a) :
    Split sep (a ++ sep :: b) = a :: Split sep b := by
  induction a with
  | nil => simp [Split]
  | cons c cs ih =>
    have hc : c ≠ sep := fun e => h (e ▸ List.mem_cons_self _ _)
    have hcs : sep ∉ cs := fun e => h (List.mem_cons_of_mem _ e)
    simp [Split, hc, ih hcs]

/-! ## strconv.Atoi on texts of digits -/

theorem isDigit_utf8Size (c : Char) (h : isDigit c = true) : c.utf8Size = 1 := by
  simp only [isDigit, Bool.and_eq_true, decide_eq_true_eq] at h
  have h2 : c.val.toNat ≤ 57 := h.2
  have : c.val ≤ 127 := by
    rw [UInt32.le_def]
    show c.val.toNat ≤ 127
    omega
  simp [Char.utf8Size, this]

theorem len_digits (s : Str) (h : ∀ c ∈ s, isDigit c = true) : len s = s.length := by
  induction s with
  | nil => rfl
  | cons c cs ih =>
    simp only [len, List.length_cons]
    rw [isDigit_utf8Size c (h c (List.mem_cons_self _ _)),
      ih (fun d hd => h d (List.mem_cons_of_mem _ hd))]
    omega

theorem isDigit_not_sign (c : Char) (h : isDigit c = true) : ¬ (c = '-' ∨ c = '+') := by
  rintro (rfl | rfl) <;> simp [isDigit] at h

theorem decValue_nil (n : Nat) : decValue n [] = n := rfl

theorem decValue_cons (n : Nat) (c : Char) (cs : Str) :
    decValue n (c :: cs) = decValue (n * 10 + (c.toNat - 48)) cs := rfl

theorem decValue_ge (s : Str) : ∀ n, n ≤ decValue n s := by
  induction s with
  | nil => intro n; exact Nat.le_refl _
  | cons c cs ih =>
    intro n
    exact Nat.le_trans (by omega) (ih (n * 10 + (c.toNat - 48)))

theorem decValue_lt (s : Str) (h : ∀ c ∈ s, isDigit c = true) :
    ∀ n, decValue n s < (n + 1) * 10 ^ s.length := by
  induction s with
  | nil =>
    intro n
    show n < (n + 1) * 10 ^ 0
    rw [Nat.pow_zero]
    omega
  | cons c cs ih =>
    intro n
    have hc := h c (List.mem_cons_self _ _)
    simp only [isDigit, Bool.and_eq_true, decide_eq_true_eq] at hc
    have := ih (fun d hd => h d (List.mem_cons_of_mem _ hd)) (n * 10 + (c.toNat - 48))
    show decValue (n * 10 + (c.toNat - 48)) cs < (n + 1) * 10 ^ (cs.length + 1)
    rw [Nat.pow_succ]
    calc decValue (n * 10 + (c.toNat - 48)) cs
        < (n * 10 + (c.toNat - 48) + 1) * 10 ^ cs.length := this
      _ ≤ ((n + 1) * 10) * 10 ^ cs.length := Nat.mul_le_mul_right _ (by omega)
      _ = (n + 1) * (10 ^ cs.length * 10) := by ring

theorem maxUint64_eq : maxUint64 = 18446744073709551615 := by
  norm_num [maxUint64]

theorem two_pow_63 : (2 : Nat) ^ 63 = 9223372036854775808 := by
  norm_num

theorem atoiFast_digits (s : Str) (h : ∀ c ∈ s, isDigit c = true) :
    ∀ n, atoiFast n s = some (decValue n s) := by
  induction s with
  | nil => intro n; rfl
  | cons c cs ih =>
    intro n
    simp [atoiFast, decValue_cons, h c (List.mem_cons_self _ _),
      ih (fun d hd => h d (List.mem_cons_of_mem _ hd))]

theorem parseUintLoop_fits (s : Str) (h : ∀ c ∈ s, isDigit c = true) :
    ∀ n, decValue n s ≤ maxUint64 → parseUintLoop n s = (decValue n s, NumErr.none) := by
  induction s with
  | nil => intro n _; rfl
  | cons c cs ih =>
    intro n hn
    have hge := decValue_ge cs (n * 10 + (c.toNat - 48))
    rw [decValue_cons] at hn
    rw [maxUint64_eq] at hn
    have h1 : ¬ n ≥ maxUint64 / 10 + 1 := by
      rw [maxUint64_eq]
      omega
    have h2 : ¬ n * 10 + (c.toNat - 48) > maxUint64 := by
      rw [maxUint64_eq]
      omega
    simp only [parseUintLoop, h c (List.mem_cons_self _ _), if_true, h1, h2, if_false,
      decValue_cons]
    exact ih (fun d hd => h d (List.mem_cons_of_mem _ hd)) _ (by rw [maxUint64_eq]; exact hn)

theorem parseUintLoop_overflow (s : Str) (h : ∀ c ∈ s, isDigit c = true) :
    ∀ n, n ≤ maxUint64 → maxUint64 < decValue n s →
      parseUintLoop n s = (maxUint64, NumErr.outOfRange) := by
  induction s with
  | nil =>
    intro n hn hlt
    rw [decValue_nil] at hlt
    omega
  | cons c cs ih =>
    intro n hn hlt
    simp only [parseUintLoop, h c (List.mem_cons_self _ _), if_true]
    by_cases h1 : n ≥ maxUint64 / 10 + 1
    · simp [h1]
    · by_cases h2 : n * 10 + (c.toNat - 48) > maxUint64
      · simp [h1, h2]
      · simp only [h1, h2, if_false]
        exact ih (fun d hd => h d (List.mem_cons_of_mem _ hd)) _ (by omega) hlt

/-- On a non-empty text of decimal digits `Atoi` returns the number the text
denotes when it is below `2^63`, and otherwise the largest `int` together with
a range error. -/
theorem Atoi_digits (s : Str) (hne : s ≠ []) (h : ∀ c ∈ s, isDigit c = true) :
    Atoi s =
      if decValue 0 s < 2 ^ 63 then (((decValue 0 s : Nat) : Int), NumErr.none)
      else (((2 ^ 63 - 1 : Nat) : Int), NumErr.outOfRange) := by
  obtain ⟨c, cs, rfl⟩ := List.exists_cons_of_ne_nil hne
  have hc := h c (List.mem_cons_self _ _)
  have hsign := isDigit_not_sign c hc
  have hminus : c ≠ '-' := fun e => hsign (Or.inl e)
  have hsign' : ¬ (c = '+' ∨ c = '-') := fun e => hsign e.symm
  have hslow : ParseInt (c :: cs) =
      if decValue 0 (c :: cs) < 2 ^ 63 then (((decValue 0 (c :: cs) : Nat) : Int), NumErr.none)
      else (((2 ^ 63 - 1 : Nat) : Int), NumErr.outOfRange) := by
    simp only [ParseInt, hsign', if_false, ParseUint]
    by_cases hfit : decValue 0 (c :: cs) ≤ maxUint64
    · rw [parseUintLoop_fits _ h 0 hfit]
      by_cases hsmall : decValue 0 (c :: cs) < 2 ^ 63
      · have : ¬ decValue 0 (c :: cs) ≥ 2 ^ 63 := by omega
        rw [two_pow_63] at hsmall this
        simp [hminus, hsmall, this]
      · have : decValue 0 (c :: cs) ≥ 2 ^ 63 := by omega
        rw [two_pow_63] at hsmall this
        simp [hminus, hsmall, this]
    · rw [parseUintLoop_overflow _ h 0 (Nat.zero_le _) (by omega)]
      have hbig : ¬ decValue 0 (c :: cs) < 2 ^ 63 := by
        rw [maxUint64_eq] at hfit
        omega
      rw [two_pow_63] at hbig
      simp [hminus, hbig, maxUint64_eq]
  unfold Atoi
  split
  · rename_i hlen
    rw [len_digits _ h] at hlen
    have hlt := decValue_lt _ h 0
    have hpow : 10 ^ (c :: cs).length ≤ 10 ^ 18 :=
      Nat.pow_le_pow_right (by decide) (by omega)
    have hsmall : decValue 0 (c :: cs) < 2 ^ 63 := by
      have : (10 : Nat) ^ 18 < 2 ^ 63 := by norm_num
      omega
    rw [two_pow_63] at hsmall
    have hplus : c ≠ '+' := fun e => hsign (Or.inr e)
    simp [hplus, atoiFast_digits _ h, hminus, hsmall]
  · exact hslow

/-! ## The decimal text of a number -/

theorem digitChar_digit (d : Nat) (h : d < 10) :
    isDigit (Nat.digitChar d) = true ∧ (Nat.digitChar d).toNat - 48 = d := by
  interval_cases d <;> exact ⟨by decide, by decide⟩

theorem toDigitsCore_spec (fuel : Nat) :
    ∀ (n : Nat) (ds : Str), n < fuel → (∀ c ∈ ds, isDigit c = true) →
      (∀ c ∈ Nat.toDigitsCore 10 fuel n ds, isDigit c = true) ∧
      Nat.toDigitsCore 10 fuel n ds ≠ [] ∧
      decValue 0 (Nat.toDigitsCore 10 fuel n ds) = decValue n ds := by
  induction fuel with
  | zero => intro n ds hn; omega
  | succ fuel ih =>
    intro n ds hn hds
    obtain ⟨hd1, hd2⟩ := digitChar_digit (n % 10) (Nat.mod_lt _ (by decide))
    have hds' : ∀ c ∈ Nat.digitChar (n % 10) :: ds, isDigit c = true := by
      intro c hc
      rcases List.mem_cons.mp hc with rfl | hc
      · exact hd1
      · exact hds c hc
    have hval : decValue (n / 10) (Nat.digitChar (n % 10) :: ds) = decValue n ds := by
      rw [decValue_cons, hd2]
      congr 1
      omega
    simp only [Nat.toDigitsCore]
    by_cases hz : n / 10 = 0
    · simp only [hz, if_true]
      refine ⟨hds', by simp, ?_⟩
      rw [← hval, hz]
    · simp only [hz, if_false]
      have := ih (n / 10) (Nat.digitChar (n % 10) :: ds) (by omega) hds'
      exact ⟨this.1, this.2.1, this.2.2.trans hval⟩

/-- The decimal text of `N` is a non-empty text of digits that denotes `N`. -/
theorem toDigits_spec (N : Nat) :
    (∀ c ∈ Nat.toDigits 10 N, isDigit c = true) ∧ Nat.toDigits 10 N ≠ [] ∧
      decValue 0 (Nat.toDigits 10 N) = N := by
  have := toDigitsCore_spec (N + 1) N [] (Nat.lt_succ_self N) (by simp)
  exact ⟨this.1, this.2.1, this.2.2⟩

/-- On the decimal text of `N`, `Atoi` returns `N` when `N < 2^63`, and the
largest `int` with a range error otherwise. -/
theorem Atoi_toDigits (N : Nat) :
    Atoi (Nat.toDigits 10 N) =
      if N < 2 ^ 63 then ((N : Int), NumErr.none)
      else (((2 ^ 63 - 1 : Nat) : Int), NumErr.outOfRange) := by
  obtain ⟨h1, h2, h3⟩ := toDigits_spec N
  rw [Atoi_digits _ h2 h1, h3]

theorem toDigits_no_separator (N : Nat) :
    ':' ∉ Nat.toDigits 10 N ∧ ',' ∉ Nat.toDigits 10 N ∧ '=' ∉ Nat.toDigits 10 N := by
  have h := (toDigits_spec N).1
  refine ⟨fun hc => ?_, fun hc => ?_, fun hc => ?_⟩ <;>
    exact absurd (h _ hc) (by decide)

/-! ## validate: the empty-value check -/

theorem validateParams_single (r : Request) (rule : Str) :
    validateParams r [rule] = validateParam r rule := by
  unfold validateParams
  cases h : validateParam r rule with
  | error p => rfl
  | ok o => cases o <;> simp [validateParams]

theorem msg_more_ne_empty (n b : Str) :
    n ++ " can't be more than ".toList ++ b ++ " characters".toList ≠
      n ++ " can't be empty".toList := by
  simp [List.append_assoc]

theorem msg_less_ne_empty (n b : Str) :
    n ++ " can't be less than ".toList ++ b ++ " characters".toList ≠
      n ++ " can't be empty".toList := by
  simp [List.append_assoc]

theorem msg_integer_ne_empty (n : Str) :
    n ++ " should be an integer string".toList ≠ n ++ " can't be empty".toList := by
  simp

theorem validateConstraint_ne_empty_msg (r : Request) (n c : Str) :
    validateConstraint r n c ≠ .ok (some (n ++ " can't be empty".toList)) := by
  unfold validateConstraint
  have h1 := msg_more_ne_empty n
  have h2 := msg_less_ne_empty n
  have h3 := msg_integer_ne_empty n
  split
  · simp
  · split
    · split
      · simp
      · split <;> simp [h1]
    · split
      · split
        · simp
        · split <;> simp [h2]
      · split
        · split <;> simp [h3]
        · simp

theorem validateConstraints_ne_empty_msg (r : Request) (n : Str) (cs : List Str) :
    validateConstraints r n cs ≠ .ok (some (n ++ " can't be empty".toList)) := by
  induction cs with
  | nil => simp [validateConstraints]
  | cons c cs ih =>
    unfold validateConstraints
    have hc := validateConstraint_ne_empty_msg r n c
    split
    · simp
    · rename_i e he
      intro heq
      apply hc
      rw [he, heq]
    · exact ih

/-- The emptiness check of `validate` on one rule, by the fields of the rule
between colons: the error `can't be empty` is returned exactly when the value
of the first field is empty and either there is no second field or the second
field does not contain `empty`. -/
theorem validate_cant_be_empty_fields (r : Request) (rule : Str)
    (hform : r.ParseFormErr = none) :
    validate r [rule] =
        .ok (some ((Split ':' rule).headD [] ++ " can't be empty".toList)) ↔
      r.FormValue ((Split ':' rule).headD []) = [] ∧
        ((Split ':' rule).length < 2 ∨
          ∃ c, (Split ':' rule).get? 1 = some c ∧ Contains c "empty".toList = false) := by
  unfold validate
  rw [hform]
  simp only [validateParams_single]
  unfold validateParam
  have hne := Split_ne_nil ':' rule
  split
  · rename_i h
    exact absurd h hne
  · rename_i name h
    rw [h]
    by_cases hv : r.FormValue name = [] <;> simp [hv]
  · rename_i name rules rest h
    rw [h]
    have hcs := validateConstraints_ne_empty_msg r name (Split ',' rules)
    by_cases hv : r.FormValue name = []
    · by_cases hc : Contains rules "empty".toList = false
      · simp_all
      · simp_all
    · simp_all

/-- A text starts with `p` exactly when it is `p` followed by some text. -/
theorem startsWith_iff (p : Str) : ∀ s : Str, startsWith s p = true ↔ ∃ t, s = p ++ t := by
  induction p with
  | nil =>
    intro s
    cases s <;> simp [startsWith]
  | cons d ds ih =>
    intro s
    cases s with
    | nil => simp [startsWith]
    | cons c cs =>
      simp only [startsWith, Bool.and_eq_true, beq_iff_eq, ih cs, List.cons_append,
        List.cons.injEq, exists_and_left]

/-- The substring test of the code against the substrings of the text:
`Contains s sub` holds exactly when `s` is some text, then `sub`, then some
text. -/
theorem Contains_iff (sub : Str) :
    ∀ s : Str, Contains s sub = true ↔ ∃ a t, s = a ++ sub ++ t := by
  intro s
  induction s with
  | nil =>
    simp only [Contains, startsWith_iff]
    constructor
    · rintro ⟨t, ht⟩
      exact ⟨[], t, by simpa using ht⟩
    · rintro ⟨a, t, ht⟩
      have h0 : a ++ sub ++ t = [] := ht.symm
      simp only [List.append_eq_nil] at h0
      exact ⟨[], by simp [h0.1.2]⟩
  | cons c cs ih =>
    simp only [Contains, Bool.or_eq_true, startsWith_iff, ih]
    constructor
    · rintro (⟨t, ht⟩ | ⟨a, t, ht⟩)
      · exact ⟨[], t, by simpa using ht⟩
      · exact ⟨c :: a, t, by simp [ht]⟩
    · rintro ⟨a, t, ht⟩
      cases a with
      | nil => exact Or.inl ⟨t, by simpa using ht⟩
      | cons x a =>
        simp only [List.cons_append, List.cons.injEq] at ht
        exact Or.inr ⟨a, t, ht.2⟩

/-- Every text either is free of `sep` or splits at its first `sep`. -/
theorem exists_first_sep (sep : Char) (s : Str) :
    sep ∉ s ∨ ∃ a b, s = a ++ sep :: b ∧ sep ∉ a := by
  induction s with
  | nil => exact Or.inl (by simp)
  | cons c cs ih =>
    by_cases hc : c = sep
    · exact Or.inr ⟨[], cs, by simp [hc], by simp⟩
    · rcases ih with h | ⟨a, b, hab, ha⟩
      · left
        simp only [List.mem_cons, not_or]
        exact ⟨fun e => hc e.symm, h⟩
      · right
        refine ⟨c :: a, b, by simp [hab], ?_⟩
        simp only [List.mem_cons, not_or]
        exact ⟨fun e => hc e.symm, ha⟩

/-- The shapes of a rule string: a name without colon, or a name without
colon, a colon, a constraint text without colon, and then nothing or a colon
with more text. -/
theorem rule_shape (rule : Str) :
    ':' ∉ rule ∨
      ∃ n c rest, rule = n ++ ':' :: (c ++ rest) ∧ ':' ∉ n ∧ ':' ∉ c ∧
        (rest = [] ∨ ∃ t, rest = ':' :: t) := by
  rcases exists_first_sep ':' rule with h | ⟨n, b, hnb, hn⟩
  · exact Or.inl h
  · right
    rcases exists_first_sep ':' b with hb | ⟨c, t, hct, hc⟩
    · exact ⟨n, b, [], by simp [hnb], hn, hb, Or.inl rfl⟩
    · exact ⟨n, c, ':' :: t, by simp [hnb, hct], hn, hc, Or.inr ⟨t, rfl⟩⟩

/-- C8, as the code has it. For a request whose form parses, a rule `<n>`
without `:constraint` suffix returns the error `<n> can't be empty` exactly
when the form value of `n` is empty; a rule `<n>:<c>`, or `<n>:<c>:...` with
more colons, returns it exactly when the form value of `n` is empty and `c`,
the constraint text up to the next colon, does not contain the substring
`empty`. By `rule_shape` every rule string has one of these shapes. -/
theorem validate_cant_be_empty_iff (r : Request) (n c rest : Str)
    (hform : r.ParseFormErr = none) (hn : ':' ∉ n) (hc : ':' ∉ c)
    (hrest : rest = [] ∨ ∃ t, rest = ':' :: t) :
    (validate r [n] = .ok (some (n ++ " can't be empty".toList)) ↔ r.FormValue n = []) ∧
      (validate r [n ++ ':' :: (c ++ rest)] = .ok (some (n ++ " can't be empty".toList)) ↔
        r.FormValue n = [] ∧ ¬ ∃ a t, c = a ++ "empty".toList ++ t) := by
  have h1 : Split ':' n = [n] := Split_of_not_mem _ _ hn
  have h2 : ∃ more, Split ':' (n ++ ':' :: (c ++ rest)) = n :: c :: more := by
    rw [Split_append_sep _ _ _ hn]
    rcases hrest with rfl | ⟨t, rfl⟩
    · exact ⟨[], by rw [List.append_nil, Split_of_not_mem _ _ hc]⟩
    · exact ⟨Split ':' t, by rw [Split_append_sep _ _ _ hc]⟩
  obtain ⟨more, h2⟩ := h2
  constructor
  · have := validate_cant_be_empty_fields r n hform
    rw [h1] at this
    simpa using this
  · have := validate_cant_be_empty_fields r (n ++ ':' :: (c ++ rest)) hform
    rw [h2] at this
    have hcont : Contains c "empty".toList = false ↔ ¬ ∃ a t, c = a ++ "empty".toList ++ t := by
      rw [← Contains_iff]
      simp
    rw [← hcont]
    have hlen : ¬ (more.length + 1 + 1 < 2) := by omega
    simpa [hlen] using this

/-- Witness for C8: on a request whose `bio` is empty, the rules `bio` and
`bio:max=5` return `bio can't be empty`, and the rule `bio:max=5,empty`, whose
constraint text contains `empty`, does not. -/
theorem validate_cant_be_empty_iff_witness :
    ((formRequest "bio".toList []).ParseFormErr = none ∧ ':' ∉ "bio".toList ∧
      ':' ∉ "max=5".toList ∧ ':' ∉ "max=5,empty".toList) ∧
      validate (formRequest "bio".toList []) ["bio".toList] =
        .ok (some "bio can't be empty".toList) ∧
      validate (formRequest "bio".toList []) ["bio:max=5".toList] =
        .ok (some "bio can't be empty".toList) ∧
      validate (formRequest "bio".toList []) ["bio:max=5,empty".toList] ≠
        .ok (some "bio can't be empty".toList) :=
  ⟨⟨rfl, by decide, by decide, by decide⟩,
    (validate_cant_be_empty_iff (formRequest "bio".toList []) "bio".toList "max=5".toList []
      rfl (by decide) (by decide) (Or.inl rfl)).1.mpr (by decide),
    (validate_cant_be_empty_iff (formRequest "bio".toList []) "bio".toList "max=5".toList []
      rfl (by decide) (by decide) (Or.inl rfl)).2.mpr
      ⟨by decide, fun h => absurd ((Contains_iff _ _).mpr h) (by decide)⟩,
    fun h => ((validate_cant_be_empty_iff (formRequest "bio".toList []) "bio".toList
      "max=5,empty".toList [] rfl (by decide) (by decide) (Or.inl rfl)).2.mp h).2
      ⟨"max=5,".toList, [], by decide⟩⟩

/-- Counterexample to C8 as stated: the rule `name:max=3:empty` has the
`:constraint` suffix `max=3:empty`, which contains `empty`, and on a request
whose `name` is empty `validate` still returns `name can't be empty`: only the
text up to the second colon, `max=3`, is searched. -/
theorem validate_empty_after_second_colon :
    (formRequest "name".toList []).FormValue "name".toList = [] ∧
      "name:max=3:empty".toList = "name".toList ++ ':' :: "max=3:empty".toList ∧
      (∃ a t, "max=3:empty".toList = a ++ "empty".toList ++ t) ∧
      validate (formRequest "name".toList []) ["name:max=3:empty".toList] =
        .ok (some "name can't be empty".toList) :=
  ⟨by decide, by decide, ⟨"max=3:".toList, [], by decide⟩, by decide⟩

/-! ## validate: the constraints at work -/

/-- C1. The rule `bio:min=5,empty` on a request whose `bio` is empty: the
`empty` opt-out lets the value through the emptiness check, but the `min`
constraint is then applied to the empty value, and `validate` returns the
error `bio can't be less than 5 characters` where the claim expects `nil`. -/
theorem validate_min_empty_rejects_empty_value :
    validate (formRequest "bio".toList []) ["bio:min=5,empty".toList] =
      .ok (some "bio can't be less than 5 characters".toList) := by
  decide

/-- C9. The rule `bio:max=1` on the value `é`, which is one character and two
bytes: `validate` returns `bio can't be more than 1 characters`, although the
trimmed value has no more than 1 character. The comparison is on `len`, the
number of bytes. -/
theorem validate_max_measures_bytes :
    (TrimSpace "é".toList).length = 1 ∧
      validate (formRequest "bio".toList "é".toList) ["bio:max=1".toList] =
        .ok (some "bio can't be more than 1 characters".toList) := by
  decide

/-- C10. The rule `bio:min=2` on the value `é`, which is one character and two
bytes: `validate` returns `nil`, although the trimmed value has fewer than 2
characters. The comparison is on `len`, the number of bytes. -/
theorem validate_min_measures_bytes :
    (TrimSpace "é".toList).length = 1 ∧
      validate (formRequest "bio".toList "é".toList) ["bio:min=2".toList] = .ok none := by
  decide

/-- The rule `<n>:max=<B>` on a non-empty value: the byte length of the
trimmed value is compared with the integer `Atoi` makes of `B`. -/
theorem validate_max_rule (r : Request) (n B : Str) (hform : r.ParseFormErr = none)
    (hn : ':' ∉ n) (hB : ':' ∉ B ∧ ',' ∉ B ∧ '=' ∉ B) (hv : r.FormValue n ≠ []) :
    validate r [n ++ ":max=".toList ++ B] =
      if (len (TrimSpace (r.FormValue n)) : Int) > (Atoi B).1 then
        .ok (some (n ++ " can't be more than ".toList ++ B ++ " characters".toList))
      else .ok none := by
  have h1 : Split ':' (n ++ ":max=".toList ++ B) = [n, "max=".toList ++ B] := by
    have : n ++ ":max=".toList ++ B = n ++ ':' :: ("max=".toList ++ B) := by simp
    rw [this, Split_append_sep _ _ _ hn, Split_of_not_mem]
    simp [hB.1]
  have h2 : Split ',' ("max=".toList ++ B) = ["max=".toList ++ B] :=
    Split_of_not_mem _ _ (by simp [hB.2.1])
  have h3 : Split '=' ("max=".toList ++ B) = ["max".toList, B] := by
    have : "max=".toList ++ B = "max".toList ++ '=' :: B := by simp
    rw [this, Split_append_sep _ _ _ (by decide), Split_of_not_mem _ _ hB.2.2]
  unfold validate
  rw [hform]
  simp only [validateParams_single, validateParam, h1, hv, false_and, if_false, h2,
    validateConstraints, validateConstraint, h3, if_true]
  split <;> (rename_i hq; exact hq.symm)

/-- The rule `<n>:min=<B>` on a non-empty value: the byte length of the
trimmed value is compared with the integer `Atoi` makes of `B`. -/
theorem validate_min_rule (r : Request) (n B : Str) (hform : r.ParseFormErr = none)
    (hn : ':' ∉ n) (hB : ':' ∉ B ∧ ',' ∉ B ∧ '=' ∉ B) (hv : r.FormValue n ≠ []) :
    validate r [n ++ ":min=".toList ++ B] =
      if (len (TrimSpace (r.FormValue n)) : Int) < (Atoi B).1 then
        .ok (some (n ++ " can't be less than ".toList ++ B ++ " characters".toList))
      else .ok none := by
  have h1 : Split ':' (n ++ ":min=".toList ++ B) = [n, "min=".toList ++ B] := by
    have : n ++ ":min=".toList ++ B = n ++ ':' :: ("min=".toList ++ B) := by simp
    rw [this, Split_append_sep _ _ _ hn, Split_of_not_mem]
    simp [hB.1]
  have h2 : Split ',' ("min=".toList ++ B) = ["min=".toList ++ B] :=
    Split_of_not_mem _ _ (by simp [hB.2.1])
  have h3 : Split '=' ("min=".toList ++ B) = ["min".toList, B] := by
    have : "min=".toList ++ B = "min".toList ++ '=' :: B := by simp
    rw [this, Split_append_sep _ _ _ (by decide), Split_of_not_mem _ _ hB.2.2]
  have hne : "min".toList ≠ "max".toList := by decide
  unfold validate
  rw [hform]
  simp only [validateParams_single, validateParam, h1, hv, false_and, if_false, h2,
    validateConstraints, validateConstraint, h3, hne, if_true]
  split <;> (rename_i hq; exact hq.symm)

theorem len_ascii (s : Str) (h : ∀ c ∈ s, c.toNat < 128) : len s = s.length := by
  induction s with
  | nil => rfl
  | cons c cs ih =>
    have hc : c.val.toNat < 128 := h c (List.mem_cons_self _ _)
    have hle : c.val ≤ 127 := by
      rw [UInt32.le_def]
      show c.val.toNat ≤ 127
      omega
    have hsize : c.utf8Size = 1 := by simp [Char.utf8Size, hle]
    simp only [len, List.length_cons]
    rw [hsize, ih (fun d hd => h d (List.mem_cons_of_mem _ hd))]
    omega

/-- The `max` rule on values of ASCII characters: for a name without colon, a
bound `N` in decimal and a non-empty value whose trimmed text is ASCII (and
shorter than `2^63`, as every Go string is), the rule `<n>:max=N` yields
`<n> can't be more than N characters` exactly when the trimmed value has more
than `N` characters, and `nil` otherwise. -/
theorem validate_max_ascii (r : Request) (n : Str) (N : Nat)
    (hform : r.ParseFormErr = none) (hn : ':' ∉ n) (hv : r.FormValue n ≠ [])
    (hascii : ∀ c ∈ TrimSpace (r.FormValue n), c.toNat < 128)
    (hsize : (TrimSpace (r.FormValue n)).length < 2 ^ 63) :
    validate r [n ++ ":max=".toList ++ Nat.toDigits 10 N] =
      if (TrimSpace (r.FormValue n)).length > N then
        .ok (some (n ++ " can't be more than ".toList ++ Nat.toDigits 10 N ++
          " characters".toList))
      else .ok none := by
  rw [validate_max_rule r n _ hform hn (toDigits_no_separator N) hv, Atoi_toDigits,
    len_ascii _ hascii]
  rw [two_pow_63] at hsize ⊢
  by_cases hN : N < 9223372036854775808
  · by_cases hgt : (TrimSpace (r.FormValue n)).length > N
    · have : ((TrimSpace (r.FormValue n)).length : Int) > (N : Int) := by omega
      simp [hN, hgt, this]
    · have : ¬ ((TrimSpace (r.FormValue n)).length : Int) > (N : Int) := by omega
      simp only [hN, if_true, hgt, if_false, this]
  · have hgt : ¬ (TrimSpace (r.FormValue n)).length > N := by omega
    have : ¬ ((TrimSpace (r.FormValue n)).length : Int) >
        ((9223372036854775808 - 1 : Nat) : Int) := by omega
    simp only [hN, if_false, hgt, this]

/-- The `min` rule on values of ASCII characters: for a name without colon,
a bound `N` in decimal and a non-empty value whose trimmed text is ASCII (and
shorter than `2^63 - 1`), the rule `<n>:min=N` yields
`<n> can't be less than N characters` exactly when the trimmed value has fewer
than `N` characters, and `nil` otherwise. -/
theorem validate_min_ascii (r : Request) (n : Str) (N : Nat)
    (hform : r.ParseFormErr = none) (hn : ':' ∉ n) (hv : r.FormValue n ≠ [])
    (hascii : ∀ c ∈ TrimSpace (r.FormValue n), c.toNat < 128)
    (hsize : (TrimSpace (r.FormValue n)).length < 2 ^ 63 - 1) :
    validate r [n ++ ":min=".toList ++ Nat.toDigits 10 N] =
      if (TrimSpace (r.FormValue n)).length < N then
        .ok (some (n ++ " can't be less than ".toList ++ Nat.toDigits 10 N ++
          " characters".toList))
      else .ok none := by
  rw [validate_min_rule r n _ hform hn (toDigits_no_separator N) hv, Atoi_toDigits,
    len_ascii _ hascii]
  rw [two_pow_63] at hsize ⊢
  by_cases hN : N < 9223372036854775808
  · by_cases hlt : (TrimSpace (r.FormValue n)).length < N
    · have : ((TrimSpace (r.FormValue n)).length : Int) < (N : Int) := by omega
      simp [hN, hlt, this]
    · have : ¬ ((TrimSpace (r.FormValue n)).length : Int) < (N : Int) := by omega
      simp only [hN, if_true, hlt, if_false, this]
  · have hlt : (TrimSpace (r.FormValue n)).length < N := by omega
    have : ((TrimSpace (r.FormValue n)).length : Int) <
        ((9223372036854775808 - 1 : Nat) : Int) := by omega
    simp only [hN, if_false, hlt, if_true, this]

theorem startsWith_self (s : Str) : startsWith s s = true := by
  induction s with
  | nil => rfl
  | cons c cs ih => simp [startsWith, ih]

theorem Contains_append_self (a sub : Str) : Contains (a ++ sub) sub = true := by
  induction a with
  | nil =>
    cases sub with
    | nil => rfl
    | cons c cs => simp [Contains, startsWith_self]
  | cons x a ih => simp [Contains, ih]

/-- The `min` rule next to the `empty` opt-out: for a name without colon, a
bound `N` in decimal and an empty value, the rule `<n>:min=N,empty` yields `nil` for
`N = 0` only, and `<n> can't be less than N characters` for every `N ≥ 1`. -/
theorem validate_min_empty_rule (r : Request) (n : Str) (N : Nat)
    (hform : r.ParseFormErr = none) (hn : ':' ∉ n) (hv : r.FormValue n = []) :
    validate r [n ++ ":min=".toList ++ Nat.toDigits 10 N ++ ",empty".toList] =
      if 0 < N then
        .ok (some (n ++ " can't be less than ".toList ++ Nat.toDigits 10 N ++
          " characters".toList))
      else .ok none := by
  obtain ⟨hc, hcomma, heq⟩ := toDigits_no_separator N
  have h1 : Split ':' (n ++ ":min=".toList ++ Nat.toDigits 10 N ++ ",empty".toList) =
      [n, "min=".toList ++ Nat.toDigits 10 N ++ ",empty".toList] := by
    have : n ++ ":min=".toList ++ Nat.toDigits 10 N ++ ",empty".toList =
        n ++ ':' :: ("min=".toList ++ Nat.toDigits 10 N ++ ",empty".toList) := by simp
    rw [this, Split_append_sep _ _ _ hn, Split_of_not_mem]
    simp [hc]
  have h2 : Split ',' ("min=".toList ++ Nat.toDigits 10 N ++ ",empty".toList) =
      ["min=".toList ++ Nat.toDigits 10 N, "empty".toList] := by
    have : "min=".toList ++ Nat.toDigits 10 N ++ ",empty".toList =
        ("min=".toList ++ Nat.toDigits 10 N) ++ ',' :: "empty".toList := by simp
    rw [this, Split_append_sep _ _ _ (by simp [hcomma]), Split_of_not_mem _ _ (by decide)]
  have h3 : Split '=' ("min=".toList ++ Nat.toDigits 10 N) = ["min".toList, Nat.toDigits 10 N] := by
    have : "min=".toList ++ Nat.toDigits 10 N = "min".toList ++ '=' :: Nat.toDigits 10 N := by
      simp
    rw [this, Split_append_sep _ _ _ (by decide), Split_of_not_mem _ _ heq]
  have h4 : Contains ("min=".toList ++ Nat.toDigits 10 N ++ ",empty".toList) "empty".toList
      = true := by
    have : "min=".toList ++ Nat.toDigits 10 N ++ ",empty".toList =
        ("min=".toList ++ Nat.toDigits 10 N ++ ",".toList) ++ "empty".toList := by simp
    rw [this]
    exact Contains_append_self _ _
  have h5 : validateConstraint r n "empty".toList = .ok none := by
    have hs : Split '=' "empty".toList = ["empty".toList] := by decide
    have e1 : "empty".toList ≠ "max".toList := by decide
    have e2 : "empty".toList ≠ "min".toList := by decide
    have e3 : "empty".toList ≠ "numeric".toList := by decide
    simp only [validateConstraint, hs, e1, e2, e3, if_false]
  have hne : "min".toList ≠ "max".toList := by decide
  have htrim : len (TrimSpace []) = 0 := rfl
  unfold validate
  rw [hform]
  simp only [validateParams_single, validateParam, h1, h4, h2, validateConstraints, h5]
  simp only [validateConstraint, h3, hne, if_false, if_true, hv, htrim, Atoi_toDigits]
  rw [two_pow_63]
  by_cases hN : N < 9223372036854775808
  · by_cases hpos : 0 < N
    · have : ((0 : Nat) : Int) < (N : Int) := by omega
      simp [hN, hpos, this]
    · have : ¬ ((0 : Nat) : Int) < (N : Int) := by omega
      simp [hN, hpos, this]
  · have hpos : 0 < N := by omega
    simp [hN, hpos]

/-! ## The request pipeline -/

theorem runMiddlewares_eq (tag : Nat → Call) (ms : List HandlerFunc) (i : Nat) (s : Run) :
    runMiddlewares tag ms i s =
      { calls := s.calls ++ (List.range' i ms.length).map tag,
        x := ms.foldl (fun x m => m x) s.x } := by
  induction ms generalizing i s with
  | nil => simp [runMiddlewares]
  | cons m ms ih => simp [runMiddlewares, ih, List.range']

/-- C5, as the code has it. When the route has `Auth = true` and the auth
collaborator answers false, `ServeHTTP` makes exactly two calls, `auth` and
then `http.Error(w, "Unauthorized Access", 401)`, which writes the status 401
and the body `Unauthorized Access` followed by a newline: no `Before`
middleware, no `validate`, no `Do`, no `After` middleware. -/
theorem ServeHTTP_unauthorized (auth : Exchange → Bool × Exchange) (h : handler)
    (x : Exchange) (hAuth : h.Auth = true) (hfail : (auth x).1 = false) :
    h.ServeHTTP auth x =
      .ok { calls := [Call.auth, Call.httpError "Unauthorized Access".toList 401],
            x := { w := { sent :=
                     (auth x).2.w.sent ++ [(401, "Unauthorized Access\n".toList)] },
                   r := (auth x).2.r } } := by
  simp [handler.ServeHTTP, hAuth, hfail, Run.httpError, httpError, StatusUnauthorized, pure,
    Except.pure]

/-- Witness for C5: the route `profile` behind an auth collaborator that
refuses. -/
theorem ServeHTTP_unauthorized_witness :
    (profile.Auth = true ∧ (denyAll (exchange "bio".toList "abc".toList)).1 = false) ∧
      profile.ServeHTTP denyAll (exchange "bio".toList "abc".toList) =
        .ok { calls := [Call.auth, Call.httpError "Unauthorized Access".toList 401],
              x := { w := { sent := [(401, "Unauthorized Access\n".toList)] },
                     r := formRequest "bio".toList "abc".toList } } :=
  ⟨⟨rfl, rfl⟩,
    ServeHTTP_unauthorized denyAll profile (exchange "bio".toList "abc".toList) rfl rfl⟩

/-- Counterexample to C5 as stated: on the route `profile` with an auth
collaborator that refuses, the body written with the status 401 is
`Unauthorized Access` and a newline, which is not the body `Unauthorized Access`. -/
theorem ServeHTTP_unauthorized_body_newline :
    profile.Auth = true ∧ (denyAll (exchange "bio".toList "abc".toList)).1 = false ∧
      (profile.ServeHTTP denyAll (exchange "bio".toList "abc".toList)).map
          (fun run => run.x.w.sent) =
        .ok [(401, "Unauthorized Access\n".toList)] ∧
      "Unauthorized Access\n".toList ≠ "Unauthorized Access".toList :=
  ⟨rfl, rfl, rfl, by decide⟩

/-- C6, as the code has it. When the auth gate passes and the non-empty
`Params` make `validate` return an error `e` on the request (as the `Before`
middlewares leave it), `ServeHTTP` has called every `Before` middleware once
in registered order, then `validate`, then `http.Error(w, e, 400)`, which
writes the status 400 and the body `e` followed by a newline, and nothing
else: neither `Do` nor any `After` middleware. -/
theorem ServeHTTP_invalid (auth : Exchange → Bool × Exchange) (h : handler) (x : Exchange)
    (e : Str) (hgate : h.Auth = false ∨ (auth x).1 = true) (hparams : h.Params ≠ [])
    (hval : validate (h.Before.foldl (fun x m => m x) (if h.Auth then (auth x).2 else x)).r
      h.Params = .ok (some e)) :
    h.ServeHTTP auth x =
      .ok { calls := (if h.Auth then [Call.auth] else []) ++
              (List.range h.Before.length).map Call.before ++
              [Call.validate, Call.httpError e 400],
            x := { w := { sent :=
                     (h.Before.foldl (fun x m => m x) (if h.Auth then (auth x).2 else x)).w.sent
                       ++ [(400, e ++ ['\n'])] },
                   r := (h.Before.foldl (fun x m => m x)
                     (if h.Auth then (auth x).2 else x)).r } } := by
  have hlen : h.Params.length > 0 := List.length_pos.mpr hparams
  cases hA : h.Auth with
  | false =>
    simp [hA] at hval
    simp [handler.ServeHTTP, hA, runMiddlewares_eq, hlen, hval, Run.httpError, httpError,
      StatusBadRequest, pure, Except.pure, List.range_eq_range']
  | true =>
    have hok : (auth x).1 = true := by
      rcases hgate with hg | hg
      · simp [hA] at hg
      · exact hg
    simp [hA] at hval
    simp [handler.ServeHTTP, hA, hok, runMiddlewares_eq, hlen, hval, Run.httpError, httpError,
      StatusBadRequest, pure, Except.pure, List.range_eq_range']

/-- Witness for C6: the route `profile` with a value of six bytes against
`bio:max=5`. -/
theorem ServeHTTP_invalid_witness :
    ((profile.Auth = false ∨ (allowAll (exchange "bio".toList "abcdef".toList)).1 = true) ∧
      profile.Params ≠ [] ∧
      validate (profile.Before.foldl (fun x m => m x)
        (if profile.Auth then (allowAll (exchange "bio".toList "abcdef".toList)).2
          else exchange "bio".toList "abcdef".toList)).r profile.Params =
        .ok (some "bio can't be more than 5 characters".toList)) ∧
      profile.ServeHTTP allowAll (exchange "bio".toList "abcdef".toList) =
        .ok { calls := [Call.auth, Call.before 0, Call.before 1, Call.validate,
                Call.httpError "bio can't be more than 5 characters".toList 400],
              x := { w := { sent := [(100, "first".toList), (100, "second".toList),
                       (400, "bio can't be more than 5 characters\n".toList)] },
                     r := formRequest "bio".toList "abcdef".toList } } :=
  ⟨⟨Or.inr rfl, by decide, by decide⟩,
    ServeHTTP_invalid allowAll profile (exchange "bio".toList "abcdef".toList)
      "bio can't be more than 5 characters".toList (Or.inr rfl) (by decide) (by decide)⟩

/-- Counterexample to C6 as stated: on the route `profile` with the value
`abcdef`, `validate` returns the error `bio can't be more than 5 characters`,
and the body written with the status 400 is that message and a newline, which
is not the message itself. -/
theorem ServeHTTP_invalid_body_newline :
    validate (formRequest "bio".toList "abcdef".toList) profile.Params =
        .ok (some "bio can't be more than 5 characters".toList) ∧
      (profile.ServeHTTP allowAll (exchange "bio".toList "abcdef".toList)).map
          (fun run => run.x.w.sent) =
        .ok [(100, "first".toList), (100, "second".toList),
          (400, "bio can't be more than 5 characters\n".toList)] ∧
      "bio can't be more than 5 characters\n".toList ≠
        "bio can't be more than 5 characters".toList :=
  ⟨by decide, rfl, by decide⟩

/-- The run of `ServeHTTP` when the gate and the validation let the request
through: all its calls in order, and the exchange it leaves. -/
theorem ServeHTTP_serves_run (auth : Exchange → Bool × Exchange) (h : handler) (x : Exchange)
    (hgate : h.Auth = false ∨ (auth x).1 = true)
    (hval : h.Params = [] ∨
      validate (h.Before.foldl (fun x m => m x) (if h.Auth then (auth x).2 else x)).r
        h.Params = .ok none) :
    h.ServeHTTP auth x =
      .ok { calls := (if h.Auth then [Call.auth] else []) ++
              (List.range h.Before.length).map Call.before ++
              (if h.Params = [] then [] else [Call.validate]) ++
              [Call.Do] ++
              (List.range h.After.length).map Call.after,
            x := h.After.foldl (fun x m => m x)
              (h.Do (h.Before.foldl (fun x m => m x) (if h.Auth then (auth x).2 else x))) } := by
  have hg : (if h.Auth = true then
        (((auth x).1, ({ calls := [Call.auth], x := (auth x).2 } : Run)) : Bool × Run)
       else (true, { calls := [], x := x })).1 = true := by
    rcases hgate with hg | hg
    · simp [hg]
    · cases h.Auth <;> simp [hg]
  by_cases hp : h.Params = []
  · cases hA : h.Auth <;>
      simp_all [handler.ServeHTTP, runMiddlewares_eq, handler.serveDo, pure, Except.pure,
        List.range_eq_range']
  · have hlen : h.Params.length > 0 := List.length_pos.mpr hp
    have hv := hval.resolve_left hp
    cases hA : h.Auth
    · simp [hA] at hv
      simp [handler.ServeHTTP, hA, runMiddlewares_eq, handler.serveDo, pure, Except.pure,
        List.range_eq_range', hp, hlen, hv]
    · simp [hA] at hv hg
      simp [handler.ServeHTTP, hA, hg, runMiddlewares_eq, handler.serveDo, pure, Except.pure,
        List.range_eq_range', hp, hlen, hv]

theorem filter_ofRoute_before (l : List Nat) :
    (l.map Call.before).filter Call.ofRoute = l.map Call.before := by
  induction l with
  | nil => rfl
  | cons i l ih => simp [List.filter, Call.ofRoute, ih]

theorem filter_ofRoute_after (l : List Nat) :
    (l.map Call.after).filter Call.ofRoute = l.map Call.after := by
  induction l with
  | nil => rfl
  | cons i l ih => simp [List.filter, Call.ofRoute, ih]

/-- C7. When the auth gate passes and validation passes or is skipped
(`Params` empty), `ServeHTTP` returns, and the calls it has made to the
collaborators of the route are exactly: every `Before` middleware once in
registered order, then `Do` once, then every `After` middleware once in
registered order. The only other calls are the one to `auth` before them, when
`Auth` is set, and the one to `validate` between the last `Before` middleware
and `Do`, when `Params` is not empty. Each collaborator receives the exchange
as the one before it left it. -/
theorem ServeHTTP_serves (auth : Exchange → Bool × Exchange) (h : handler) (x : Exchange)
    (hgate : h.Auth = false ∨ (auth x).1 = true)
    (hval : h.Params = [] ∨
      validate (h.Before.foldl (fun x m => m x) (if h.Auth then (auth x).2 else x)).r
        h.Params = .ok none) :
    ∃ run, h.ServeHTTP auth x = .ok run ∧
      run.calls.filter Call.ofRoute =
        (List.range h.Before.length).map Call.before ++ [Call.Do] ++
          (List.range h.After.length).map Call.after ∧
      run.calls =
        (if h.Auth then [Call.auth] else []) ++
          (List.range h.Before.length).map Call.before ++
          (if h.Params = [] then [] else [Call.validate]) ++ [Call.Do] ++
          (List.range h.After.length).map Call.after ∧
      run.x = h.After.foldl (fun x m => m x)
        (h.Do (h.Before.foldl (fun x m => m x) (if h.Auth then (auth x).2 else x))) := by
  refine ⟨_, ServeHTTP_serves_run auth h x hgate hval, ?_, rfl, rfl⟩
  simp only [List.filter_append, filter_ofRoute_before, filter_ofRoute_after]
  cases h.Auth <;> by_cases hp : h.Params = [] <;> simp [hp, List.filter, Call.ofRoute]

/-- Witness for C7: the route `profile` with a value of three bytes against
`bio:max=5`. -/
theorem ServeHTTP_serves_witness :
    ((profile.Auth = false ∨ (allowAll (exchange "bio".toList "abc".toList)).1 = true) ∧
      (profile.Params = [] ∨
        validate (profile.Before.foldl (fun x m => m x)
          (if profile.Auth then (allowAll (exchange "bio".toList "abc".toList)).2
            else exchange "bio".toList "abc".toList)).r profile.Params = .ok none)) ∧
      ∃ run, profile.ServeHTTP allowAll (exchange "bio".toList "abc".toList) = .ok run ∧
        run.calls.filter Call.ofRoute =
          [Call.before 0, Call.before 1, Call.Do, Call.after 0] ∧
        run.calls =
          [Call.auth, Call.before 0, Call.before 1, Call.validate, Call.Do, Call.after 0] ∧
        run.x.w.sent = [(100, "first".toList), (100, "second".toList), (200, "saved".toList),
          (100, "last".toList)] :=
  ⟨⟨Or.inr rfl, Or.inr (by decide)⟩,
    (ServeHTTP_serves allowAll profile (exchange "bio".toList "abc".toList)
      (Or.inr rfl) (Or.inr (by decide))).imp
      (fun _ hrun => ⟨hrun.1, hrun.2.1, hrun.2.2.1, by rw [hrun.2.2.2]; rfl⟩)⟩

/-! ## Maps -/

theorem lookup_assign_self {V : Type} (m : GoMap V) (k : Str) (v : V) :
    lookup (assign m k v) k = some v := by
  induction m with
  | nil => simp [assign, lookup]
  | cons p rest ih =>
    obtain ⟨k', v'⟩ := p
    by_cases hk : k' = k <;> simp [assign, lookup, hk, ih]

theorem lookup_assign_ne {V : Type} (m : GoMap V) (k k' : Str) (v : V) (h : k' ≠ k) :
    lookup (assign m k v) k' = lookup m k' := by
  induction m with
  | nil => simp [assign, lookup, Ne.symm h]
  | cons p rest ih =>
    obtain ⟨k₀, v₀⟩ := p
    by_cases hk : k₀ = k
    · subst hk
      simp [assign, lookup, Ne.symm h]
    · by_cases hk' : k₀ = k'
      · subst hk'
        simp [assign, lookup, hk]
      · simp [assign, lookup, hk, hk', ih]

theorem assign_ne_nil {V : Type} (m : GoMap V) (k : Str) (v : V) : assign m k v ≠ [] := by
  cases m with
  | nil => simp [assign]
  | cons p rest =>
    obtain ⟨k', v'⟩ := p
    by_cases hk : k' = k <;> simp [assign, hk]

theorem mem_assign {V : Type} (m : GoMap V) (k : Str) (v : V) (p : Str × V)
    (hp : p ∈ assign m k v) : p ∈ m ∨ p = (k, v) := by
  induction m with
  | nil => simpa [assign] using hp
  | cons q rest ih =>
    obtain ⟨k', v'⟩ := q
    by_cases hk : k' = k
    · simp only [assign, hk, if_true, List.mem_cons] at hp
      rcases hp with hp | hp
      · exact Or.inr hp
      · exact Or.inl (List.mem_cons_of_mem _ hp)
    · simp only [assign, hk, if_false, List.mem_cons] at hp
      rcases hp with hp | hp
      · exact Or.inl (hp ▸ List.mem_cons_self _ _)
      · rcases ih hp with h | h
        · exact Or.inl (List.mem_cons_of_mem _ h)
        · exact Or.inr h

theorem assign_assign {V : Type} (m : GoMap V) (k : Str) (v w : V) :
    assign (assign m k v) k w = assign m k w := by
  induction m with
  | nil => simp [assign]
  | cons p rest ih =>
    obtain ⟨k', v'⟩ := p
    by_cases hk : k' = k <;> simp [assign, hk, ih]

theorem lookup_mem {V : Type} (m : GoMap V) (k : Str) (v : V) (h : lookup m k = some v) :
    (k, v) ∈ m := by
  induction m with
  | nil => simp [lookup] at h
  | cons p rest ih =>
    obtain ⟨k', v'⟩ := p
    by_cases hk : k' = k
    · simp [lookup, hk] at h
      simp [hk, h]
    · simp [lookup, hk] at h
      exact List.mem_cons_of_mem _ (ih h)

theorem lookup_of_mem {V : Type} (m : GoMap V) (k : Str) (v : V) (h : (k, v) ∈ m) :
    ∃ v', lookup m k = some v' := by
  induction m with
  | nil => simp at h
  | cons p rest ih =>
    obtain ⟨k', v'⟩ := p
    by_cases hk : k' = k
    · exact ⟨v', by simp [lookup, hk]⟩
    · have hmem : (k, v) ∈ rest := by
        rcases List.mem_cons.mp h with h | h
        · exact absurd (congrArg Prod.fst h).symm hk
        · exact h
      obtain ⟨w, hw⟩ := ih hmem
      exact ⟨w, by simp [lookup, hk, hw]⟩

/-! ## The route table: one registration -/

theorem register_eq (up : Char → Char) (routes : GoMap (GoMap handler)) (h : handler) :
    register up routes h =
      if methodAt ((lookup routes h.URI).getD []) (ToUpper up h.Method) ≠ [] then
        .error (Panic.explicit
          ("Duplicate Routes: ".toList ++ ToUpper up h.Method ++ " ".toList ++ h.URI))
      else
        .ok (assign routes h.URI
          (assign ((lookup routes h.URI).getD []) (ToUpper up h.Method) h)) := by
  unfold register
  cases hl : lookup routes h.URI with
  | none => simp [lookup_assign_self, assign_assign]
  | some m => simp [hl]

theorem entry_register (up : Char → Char) (routes routes' : GoMap (GoMap handler))
    (h : handler) (hok : register up routes h = .ok routes') (u k : Str) :
    entry routes' u k =
      if u = h.URI ∧ k = ToUpper up h.Method then some h else entry routes u k := by
  rw [register_eq] at hok
  split at hok
  · simp at hok
  · simp only [Except.ok.injEq] at hok
    subst hok
    by_cases hu : u = h.URI
    · subst hu
      by_cases hk : k = ToUpper up h.Method
      · subst hk
        simp [entry, lookup_assign_self]
      · simp only [entry, lookup_assign_self, hk, and_false, if_false]
        rw [lookup_assign_ne _ _ _ _ hk]
        cases lookup routes h.URI <;> simp [lookup]
    · simp only [entry, hu, false_and, if_false]
      rw [lookup_assign_ne _ _ _ _ hu]

theorem methodAt_eq_entry (routes : GoMap (GoMap handler)) (u k : Str) :
    methodAt ((lookup routes u).getD []) k =
      match entry routes u k with
      | some h => h.Method
      | none => [] := by
  unfold methodAt entry
  cases lookup routes u <;> simp [lookup]

/-! ## The route table: the loops -/

theorem registerGroup_append (up : Char → Char) (routes : GoMap (GoMap handler))
    (xs ys : List handler) :
    registerGroup up routes (xs ++ ys) =
      match registerGroup up routes xs with
      | .error p => .error p
      | .ok routes => registerGroup up routes ys := by
  induction xs generalizing routes with
  | nil => simp [registerGroup]
  | cons h hs ih =>
    simp only [List.cons_append, registerGroup]
    cases register up routes h with
    | error p => simp
    | ok routes' => simp [ih]

theorem registerGroups_eq_join (up : Char → Char) (routes : GoMap (GoMap handler))
    (groups : List (List handler)) :
    registerGroups up routes groups = registerGroup up routes groups.flatten := by
  induction groups generalizing routes with
  | nil => simp [registerGroups, registerGroup]
  | cons g gs ih =>
    simp only [registerGroups, List.flatten_cons, registerGroup_append]
    cases registerGroup up routes g with
    | error p => simp
    | ok routes' => simp [ih]

/-- Without a collision among the routes registered so far (`seen`) and those
still to come (`rest`), the loop ends without panic, and the table holds
exactly the routes seen, each under its own pair of keys. -/
theorem registerGroup_distinct (up : Char → Char) (rest : List handler) :
    ∀ (seen : List handler) (routes : GoMap (GoMap handler)),
      (∀ u k h, entry routes u k = some h → h ∈ seen ∧ routeKey up h = (u, k)) →
      (∀ h ∈ seen, entry routes h.URI (ToUpper up h.Method) = some h) →
      (seen ++ rest).Pairwise (fun a b => routeKey up a ≠ routeKey up b) →
      ∃ T, registerGroup up routes rest = .ok T ∧
        (∀ u k h, entry T u k = some h → h ∈ seen ++ rest ∧ routeKey up h = (u, k)) ∧
        (∀ h ∈ seen ++ rest, entry T h.URI (ToUpper up h.Method) = some h) := by
  induction rest with
  | nil =>
    intro seen routes ha hb _
    exact ⟨routes, rfl, by simpa using ha, by simpa using hb⟩
  | cons g rest ih =>
    intro seen routes ha hb hpw
    have hfree : entry routes g.URI (ToUpper up g.Method) = none := by
      cases he : entry routes g.URI (ToUpper up g.Method) with
      | none => rfl
      | some h' =>
        obtain ⟨hmem, hkey⟩ := ha _ _ _ he
        have hpw' := List.pairwise_append.mp hpw
        exact absurd hkey (hpw'.2.2 h' hmem g (List.mem_cons_self _ _))
    have hreg : register up routes g =
        .ok (assign routes g.URI
          (assign ((lookup routes g.URI).getD []) (ToUpper up g.Method) g)) := by
      rw [register_eq, methodAt_eq_entry, hfree]
      simp
    have hent := entry_register up routes _ g hreg
    have hpw2 : ((seen ++ [g]) ++ rest).Pairwise (fun a b => routeKey up a ≠ routeKey up b) := by
      simpa using hpw
    obtain ⟨T, hT, hTa, hTb⟩ := ih (seen ++ [g]) _ (by
        intro u k h he
        rw [hent] at he
        split at he
        · rename_i hc
          simp only [Option.some.injEq] at he
          subst he
          exact ⟨by simp, by simp [routeKey, hc.1, hc.2]⟩
        · obtain ⟨hm, hk⟩ := ha _ _ _ he
          exact ⟨by simp [hm], hk⟩) (by
        intro h hmem
        rw [hent]
        rcases List.mem_append.mp hmem with hs | hs
        · have hpw' := List.pairwise_append.mp hpw
          have hne := hpw'.2.2 h hs g (List.mem_cons_self _ _)
          have : ¬ (h.URI = g.URI ∧ ToUpper up h.Method = ToUpper up g.Method) := by
            intro hc
            exact hne (by simp [routeKey, hc.1, hc.2])
          simp only [this, if_false]
          exact hb h hs
        · simp only [List.mem_singleton] at hs
          subst hs
          simp) hpw2
    refine ⟨T, ?_, ?_, ?_⟩
    · simp only [registerGroup, hreg]
      exact hT
    · intro u k h he
      have := hTa u k h he
      simpa using this
    · intro h hmem
      exact hTb h (by simpa using hmem)

theorem target_of_lookup (m : GoMap handler) (k : Str) (h : handler) (pick : Nat)
    (hl : lookup m k = some h) (hm : h.Method ≠ []) : routeFunc.target m k pick = some h := by
  simp [routeFunc.target, methodAt, hl, hm]

/-! ## Routes without collision -/

/-- C2, as the code has it. When no two routes of the groups share the same
(URI, uppercase(Method)) pair, the table construction of `NewServeMux` does not
panic, and for every declared route `h` whose `Method` is not empty, the
function `routeFunc` registered on `h.URI` sends a request with method
uppercase(`h.Method`) to exactly `h`, whatever the iteration order of the
map. -/
theorem NewServeMux_resolves (up : Char → Char) (groups : List (List handler))
    (hdistinct : groups.flatten.Pairwise (fun a b => routeKey up a ≠ routeKey up b)) :
    ∃ T, NewServeMux up groups = .ok T ∧
      ∀ h ∈ groups.flatten, h.Method ≠ [] →
        ∃ m, lookup T h.URI = some m ∧
          ∀ pick, routeFunc.target m (ToUpper up h.Method) pick = some h := by
  obtain ⟨T, hT, _, hTb⟩ := registerGroup_distinct up groups.flatten [] []
    (by intro u k h he; simp [entry, lookup] at he)
    (by intro h hmem; simp at hmem)
    (by simpa using hdistinct)
  refine ⟨T, by rw [NewServeMux, registerGroups_eq_join]; exact hT, ?_⟩
  intro h hmem hmethod
  have he := hTb h (by simpa using hmem)
  unfold entry at he
  cases hl : lookup T h.URI with
  | none => simp [hl] at he
  | some m =>
    simp only [hl] at he
    exact ⟨m, rfl, fun pick => target_of_lookup m _ h pick he hmethod⟩

/-- Witness for C2: the routes `GET /x` and `POST /x`. -/
theorem NewServeMux_resolves_witness :
    [[getX], [postX]].flatten.Pairwise
        (fun a b => routeKey Char.toUpper a ≠ routeKey Char.toUpper b) ∧
      ∃ T, NewServeMux Char.toUpper [[getX], [postX]] = .ok T ∧
        ∀ h ∈ [[getX], [postX]].flatten, h.Method ≠ [] →
          ∃ m, lookup T h.URI = some m ∧
            ∀ pick, routeFunc.target m (ToUpper Char.toUpper h.Method) pick = some h :=
  ⟨by decide, NewServeMux_resolves Char.toUpper [[getX], [postX]] (by decide)⟩

/-- Counterexample to C2 as stated: the routes `anyMethod` (no method) and
`getX` on `/x` share no pair of keys and the table is built, yet a request to
`/x` with the
(empty) method of `anyMethod` can be sent to `getX`. -/
theorem NewServeMux_empty_method_not_resolved :
    [[anyMethod, getX]].flatten.Pairwise
        (fun a b => routeKey Char.toUpper a ≠ routeKey Char.toUpper b) ∧
      anyMethod ∈ [[anyMethod, getX]].flatten ∧
      ∃ T m, NewServeMux Char.toUpper [[anyMethod, getX]] = .ok T ∧
        lookup T anyMethod.URI = some m ∧
        routeFunc.target m (ToUpper Char.toUpper anyMethod.Method) 1 = some getX ∧
        getX.Action ≠ anyMethod.Action :=
  ⟨by decide, by simp, _, _, rfl, rfl, rfl, by decide⟩

/-! ## Routes in collision -/

theorem register_error_explicit (up : Char → Char) (routes : GoMap (GoMap handler))
    (h : handler) (p : Panic) (hp : register up routes h = .error p) :
    ∃ msg, p = Panic.explicit msg := by
  rw [register_eq] at hp
  split at hp
  · simp only [Except.error.injEq] at hp
    exact ⟨_, hp.symm⟩
  · simp at hp

/-- Once a route with a non-empty `Method` is stored under a pair of keys, a
later route with the same pair makes the loop panic. -/
theorem registerGroup_collision (up : Char → Char) (rest : List handler) :
    ∀ (seen : List handler) (routes : GoMap (GoMap handler)),
      (∀ a ∈ seen, a.Method ≠ [] →
        ∃ h, entry routes a.URI (ToUpper up a.Method) = some h ∧ h.Method ≠ []) →
      (∃ a b, ((a ∈ seen ∧ b ∈ rest) ∨ List.Sublist [a, b] rest) ∧
        routeKey up a = routeKey up b ∧ a.Method ≠ []) →
      ∃ msg, registerGroup up routes rest = .error (Panic.explicit msg) := by
  induction rest with
  | nil =>
    intro seen routes _ hcol
    obtain ⟨a, b, hpos, _, _⟩ := hcol
    rcases hpos with ⟨_, hb⟩ | hsub
    · simp at hb
    · simp at hsub
  | cons g rest ih =>
    intro seen routes hinv hcol
    cases hreg : register up routes g with
    | error p =>
      obtain ⟨msg, hmsg⟩ := register_error_explicit up routes g p hreg
      exact ⟨msg, by simp [registerGroup, hreg, hmsg]⟩
    | ok routes' =>
      have hent := entry_register up routes routes' g hreg
      have hstored : ∀ a ∈ seen, a.Method ≠ [] → routeKey up a ≠ routeKey up g := by
        intro a ha hm hkey
        obtain ⟨h, he, hne⟩ := hinv a ha hm
        simp only [routeKey, Prod.mk.injEq] at hkey
        rw [hkey.1, hkey.2] at he
        rw [register_eq, methodAt_eq_entry, he] at hreg
        simp [hne] at hreg
      have hinv' : ∀ a ∈ g :: seen, a.Method ≠ [] →
          ∃ h, entry routes' a.URI (ToUpper up a.Method) = some h ∧ h.Method ≠ [] := by
        intro a ha hm
        rw [hent]
        rcases List.mem_cons.mp ha with hag | has
        · subst hag
          exact ⟨a, by simp, hm⟩
        · have hne := hstored a has hm
          have : ¬ (a.URI = g.URI ∧ ToUpper up a.Method = ToUpper up g.Method) := by
            intro hc
            exact hne (by simp [routeKey, hc.1, hc.2])
          simp only [this, if_false]
          exact hinv a has hm
      have hnext : ∃ a b, ((a ∈ g :: seen ∧ b ∈ rest) ∨ List.Sublist [a, b] rest) ∧
          routeKey up a = routeKey up b ∧ a.Method ≠ [] := by
        obtain ⟨a, b, hpos, hkey, hm⟩ := hcol
        rcases hpos with ⟨ha, hb⟩ | hsub
        · rcases List.mem_cons.mp hb with hbg | hbr
          · subst hbg
            exact absurd hkey (hstored a ha hm)
          · exact ⟨a, b, Or.inl ⟨List.mem_cons_of_mem _ ha, hbr⟩, hkey, hm⟩
        · cases hsub with
          | cons _ hs => exact ⟨a, b, Or.inr hs, hkey, hm⟩
          | cons₂ _ hs =>
            exact ⟨_, b, Or.inl ⟨List.mem_cons_self _ _, List.singleton_sublist.mp hs⟩,
              hkey, hm⟩
      obtain ⟨msg, hmsg⟩ := ih (g :: seen) routes' hinv' hnext
      exact ⟨msg, by simp [registerGroup, hreg, hmsg]⟩

/-- C3, as the code has it. When the groups hold two routes `a` before `b`, in
the same group or in different ones, with equal URI, equal uppercase(Method)
and a non-empty `Method`, the table construction of `NewServeMux` panics
instead of returning a table. -/
theorem NewServeMux_duplicate_panics (up : Char → Char) (groups : List (List handler))
    (a b : handler) (hboth : List.Sublist [a, b] groups.flatten)
    (hkey : routeKey up a = routeKey up b) (hmethod : a.Method ≠ []) :
    ∃ msg, NewServeMux up groups = .error (Panic.explicit msg) := by
  rw [NewServeMux, registerGroups_eq_join]
  exact registerGroup_collision up groups.flatten [] [] (by intro a ha; simp at ha)
    ⟨a, b, Or.inr hboth, hkey, hmethod⟩

/-- Witness for C3: `get` and `GET` on `/x`, declared in two groups, collide. -/
theorem NewServeMux_duplicate_panics_witness :
    (List.Sublist [getLowerX, getX] [[getLowerX], [postX, getX]].flatten ∧
      routeKey Char.toUpper getLowerX = routeKey Char.toUpper getX ∧
      getLowerX.Method ≠ []) ∧
      ∃ msg, NewServeMux Char.toUpper [[getLowerX], [postX, getX]] =
        .error (Panic.explicit msg) :=
  ⟨⟨by simp, by decide, by decide⟩,
    NewServeMux_duplicate_panics Char.toUpper [[getLowerX], [postX, getX]] getLowerX getX
      (by simp) (by decide) (by decide)⟩

/-- Counterexample to C3 as stated: two routes on `/x` that both have the empty
`Method` share their URI and their uppercase(Method), and `NewServeMux`
returns a table; the second route has taken the place of the first. -/
theorem NewServeMux_empty_method_duplicate_accepted :
    List.Sublist [anyMethod, anyMethodAgain] [[anyMethod, anyMethodAgain]].flatten ∧
      routeKey Char.toUpper anyMethod = routeKey Char.toUpper anyMethodAgain ∧
      NewServeMux Char.toUpper [[anyMethod, anyMethodAgain]] =
        .ok [("/x".toList, [([], anyMethodAgain)])] :=
  ⟨by simp, by decide, rfl⟩

/-! ## The fallback of routeFunc -/

theorem register_nonempty (up : Char → Char) (routes routes' : GoMap (GoMap handler))
    (h : handler) (hok : register up routes h = .ok routes')
    (hinv : ∀ p ∈ routes, p.2 ≠ []) : ∀ p ∈ routes', p.2 ≠ [] := by
  rw [register_eq] at hok
  split at hok
  · simp at hok
  · simp only [Except.ok.injEq] at hok
    subst hok
    intro p hp
    rcases mem_assign _ _ _ _ hp with hp | hp
    · exact hinv p hp
    · rw [hp]
      exact assign_ne_nil _ _ _

theorem registerGroup_nonempty (up : Char → Char) (hs : List handler) :
    ∀ (routes T : GoMap (GoMap handler)), registerGroup up routes hs = .ok T →
      (∀ p ∈ routes, p.2 ≠ []) → ∀ p ∈ T, p.2 ≠ [] := by
  induction hs with
  | nil =>
    intro routes T hT hinv
    simp only [registerGroup, Except.ok.injEq] at hT
    subst hT
    exact hinv
  | cons h hs ih =>
    intro routes T hT hinv
    simp only [registerGroup] at hT
    cases hreg : register up routes h with
    | error p => simp [hreg] at hT
    | ok routes' =>
      simp only [hreg] at hT
      exact ih routes' T hT (register_nonempty up routes routes' h hreg hinv)

theorem rangeFirst_of_ne_nil {V : Type} (m : GoMap V) (pick : Nat) (hm : m ≠ []) :
    ∃ k v, rangeFirst m pick = some k ∧ (k, v) ∈ m := by
  have hlen : 0 < m.length := List.length_pos.mpr hm
  have hlt : pick % m.length < m.length := Nat.mod_lt _ hlen
  cases hg : m.get? (pick % m.length) with
  | none => exact absurd (List.get?_eq_none.mp hg) (Nat.not_le.mpr hlt)
  | some p => exact ⟨p.1, p.2, by rw [rangeFirst, hg]; rfl, List.get?_mem hg⟩

/-- C4. In a table built by `NewServeMux`, every per-path method map `m` is
non-empty, and for a request method that has no route in `m` the function
`routeFunc(m)` runs the pipeline of exactly one route, which is a member of
`m`, whatever the iteration order of the map. -/
theorem routeFunc_fallback (up : Char → Char) (groups : List (List handler))
    (T : GoMap (GoMap handler)) (hT : NewServeMux up groups = .ok T)
    (uri : Str) (m : GoMap handler) (hm : (uri, m) ∈ T)
    (method : Str) (habsent : lookup m method = none) (pick : Nat) :
    m ≠ [] ∧
      ∃ k h, (k, h) ∈ m ∧ routeFunc.target m method pick = some h ∧
        ∀ auth x, x.r.Method = method → routeFunc auth m pick x = h.ServeHTTP auth x := by
  have hne : m ≠ [] := by
    rw [NewServeMux, registerGroups_eq_join] at hT
    exact registerGroup_nonempty up groups.flatten [] T hT (by intro p hp; simp at hp) _ hm
  obtain ⟨k, v, hk, hkv⟩ := rangeFirst_of_ne_nil m pick hne
  obtain ⟨h, hh⟩ := lookup_of_mem m k v hkv
  have htarget : routeFunc.target m method pick = some h := by
    simp [routeFunc.target, methodAt, habsent, hk, hh]
  refine ⟨hne, k, h, lookup_mem m k h hh, htarget, ?_⟩
  intro auth x hx
  simp [routeFunc, hx, htarget]

/-- Witness for C4: routes for `GET` and `POST` on `/x`, request method
`DELETE`. -/
theorem routeFunc_fallback_witness :
    (NewServeMux Char.toUpper [[getX, postX]] =
        .ok [("/x".toList, [("GET".toList, getX), ("POST".toList, postX)])] ∧
      ("/x".toList, [("GET".toList, getX), ("POST".toList, postX)]) ∈
        [("/x".toList, [("GET".toList, getX), ("POST".toList, postX)])] ∧
      lookup [("GET".toList, getX), ("POST".toList, postX)] "DELETE".toList = none) ∧
      ∃ k h, (k, h) ∈ [("GET".toList, getX), ("POST".toList, postX)] ∧
        routeFunc.target [("GET".toList, getX), ("POST".toList, postX)] "DELETE".toList 7
          = some h ∧
        ∀ auth x, x.r.Method = "DELETE".toList →
          routeFunc auth [("GET".toList, getX), ("POST".toList, postX)] 7 x
            = h.ServeHTTP auth x :=
  ⟨⟨rfl, by simp, rfl⟩,
    (routeFunc_fallback Char.toUpper [[getX, postX]]
      [("/x".toList, [("GET".toList, getX), ("POST".toList, postX)])] rfl "/x".toList
      [("GET".toList, getX), ("POST".toList, postX)] (by simp) "DELETE".toList rfl 7).2⟩

/-! ## validate: the rules in order -/

theorem validateParams_append (r : Request) (xs ys : List Str) :
    validateParams r (xs ++ ys) =
      match validateParams r xs with
      | .error p => .error p
      | .ok (some e) => .ok (some e)
      | .ok none => validateParams r ys := by
  induction xs with
  | nil => simp [validateParams]
  | cons x xs ih =>
    simp only [List.cons_append, validateParams]
    cases hx : validateParam r x with
    | error p => simp
    | ok o =>
      cases o with
      | some e => simp
      | none => simpa using ih

/-- C12. `validate` reports the first failing rule in order: if
`validate(r, xs)` returns an error `e`, then `validate(r, xs ++ ys)` returns
the same `e`, and if `validate(r, xs)` returns `nil`, then
`validate(r, xs ++ ys)` equals `validate(r, ys)`. -/
theorem validate_append (r : Request) (xs ys : List Str) :
    (∀ e, validate r xs = .ok (some e) → validate r (xs ++ ys) = .ok (some e)) ∧
      (validate r xs = .ok none → validate r (xs ++ ys) = validate r ys) := by
  unfold validate
  cases hf : r.ParseFormErr with
  | some e0 => simp
  | none =>
    simp only [validateParams_append]
    constructor
    · intro e he
      simp [he]
    · intro he
      simp [he]

/-- Witness for C12: the rules `email` and `age:numeric` with an empty `email`,
followed by any further rules, and with a filled-in `email`. -/
theorem validate_append_witness :
    validate (signupRequest [] "x".toList) ["email".toList] =
        .ok (some "email can't be empty".toList) ∧
      validate (signupRequest [] "x".toList) (["email".toList] ++ ["age:numeric".toList]) =
        .ok (some "email can't be empty".toList) ∧
      validate (signupRequest "a@b.com".toList "x".toList) ["email".toList] = .ok none ∧
      validate (signupRequest "a@b.com".toList "x".toList)
          (["email".toList] ++ ["age:numeric".toList]) =
        validate (signupRequest "a@b.com".toList "x".toList) ["age:numeric".toList] :=
  ⟨by decide,
    (validate_append (signupRequest [] "x".toList) ["email".toList]
      ["age:numeric".toList]).1 _ (by decide),
    by decide,
    (validate_append (signupRequest "a@b.com".toList "x".toList) ["email".toList]
      ["age:numeric".toList]).2 (by decide)⟩

/-! ## validate: a constraint without its value -/

/-- C13. The rule `bio:max`, a `max` constraint with no `=value` part, on a
request whose `bio` is `abc`: `validate` does not return; the index `vs[1]` is
out of range and the call panics. -/
theorem validate_max_without_value_panics :
    validate (formRequest "bio".toList "abc".toList) ["bio:max".toList] =
      .error Panic.indexOutOfRange := by
  decide

/-! ## The sign-up example -/

/-- C14, as the code has it. The route POST `/signup` with the rules `email`
and `age:numeric` and no auth: with the form `email=a@b.com&age=30` the
pipeline calls `validate` and then `Do`; with `email=&age=30` it calls
`http.Error(w, "email can't be empty", 400)`, which writes the status 400 and
the body `email can't be empty` followed by a newline, and does not call `Do`;
with `email=a@b.com&age=x` it calls
`http.Error(w, "age should be an integer string", 400)`, which writes the
status 400 and the body `age should be an integer string` followed by a
newline, and does not call `Do`. -/
theorem signup_end_to_end (auth : Exchange → Bool × Exchange) (Do : HandlerFunc)
    (w : ResponseWriter) :
    (signup Do).ServeHTTP auth { w := w, r := signupRequest "a@b.com".toList "30".toList } =
        .ok { calls := [Call.validate, Call.Do],
              x := Do { w := w, r := signupRequest "a@b.com".toList "30".toList } } ∧
      (signup Do).ServeHTTP auth { w := w, r := signupRequest [] "30".toList } =
        .ok { calls := [Call.validate, Call.httpError "email can't be empty".toList 400],
              x := { w := { sent := w.sent ++ [(400, "email can't be empty\n".toList)] },
                     r := signupRequest [] "30".toList } } ∧
      (signup Do).ServeHTTP auth { w := w, r := signupRequest "a@b.com".toList "x".toList } =
        .ok { calls := [Call.validate,
                Call.httpError "age should be an integer string".toList 400],
              x := { w := { sent := w.sent ++
                       [(400, "age should be an integer string\n".toList)] },
                     r := signupRequest "a@b.com".toList "x".toList } } := by
  have h1 : validate (signupRequest "a@b.com".toList "30".toList)
      ["email".toList, "age:numeric".toList] = .ok none := by decide
  have h2 : validate (signupRequest [] "30".toList)
      ["email".toList, "age:numeric".toList] = .ok (some "email can't be empty".toList) := by
    decide
  have h3 : validate (signupRequest "a@b.com".toList "x".toList)
      ["email".toList, "age:numeric".toList] =
        .ok (some "age should be an integer string".toList) := by decide
  refine ⟨?_, ?_, ?_⟩
  · simp only [handler.ServeHTTP, signup, runMiddlewares, h1]
    rfl
  · simp only [handler.ServeHTTP, signup, runMiddlewares, h2]
    rfl
  · simp only [handler.ServeHTTP, signup, runMiddlewares, h3]
    rfl

/-- Counterexample to C14 as stated: with the forms `email=&age=30` and
`email=a@b.com&age=x` the bodies written with the status 400 are
`email can't be empty` and `age should be an integer string`, each followed by
a newline, which are not the bodies the claim states. -/
theorem signup_bodies_newline :
    ((signup (replies 200 "welcome".toList)).ServeHTTP allowAll
          { w := { sent := [] }, r := signupRequest [] "30".toList }).map
          (fun run => run.x.w.sent) =
        .ok [(400, "email can't be empty\n".toList)] ∧
      "email can't be empty\n".toList ≠ "email can't be empty".toList ∧
      ((signup (replies 200 "welcome".toList)).ServeHTTP allowAll
          { w := { sent := [] }, r := signupRequest "a@b.com".toList "x".toList }).map
          (fun run => run.x.w.sent) =
        .ok [(400, "age should be an integer string\n".toList)] ∧
      "age should be an integer string\n".toList ≠ "age should be an integer string".toList :=
  ⟨rfl, by decide, rfl, by decide⟩

/-! ## The invariant of the route table -/

theorem ToUpper_eq_nil (up : Char → Char) (s : Str) : ToUpper up s = [] ↔ s = [] := by
  simp [ToUpper]

theorem register_stored (up : Char → Char) (declared : handler → Prop)
    (routes routes' : GoMap (GoMap handler)) (g : handler)
    (hok : register up routes g = .ok routes') (hg : declared g)
    (hinv : ∀ u m, (u, m) ∈ routes →
      m ≠ [] ∧ ∀ k h, (k, h) ∈ m → declared h ∧ routeKey up h = (u, k)) :
    ∀ u m, (u, m) ∈ routes' →
      m ≠ [] ∧ ∀ k h, (k, h) ∈ m → declared h ∧ routeKey up h = (u, k) := by
  rw [register_eq] at hok
  split at hok
  · simp at hok
  · simp only [Except.ok.injEq] at hok
    subst hok
    intro u m hm
    rcases mem_assign _ _ _ _ hm with hm | hm
    · exact hinv u m hm
    · simp only [Prod.mk.injEq] at hm
      obtain ⟨hu, hmm⟩ := hm
      subst hu hmm
      refine ⟨assign_ne_nil _ _ _, ?_⟩
      intro k h hkh
      rcases mem_assign _ _ _ _ hkh with hkh | hkh
      · cases hl : lookup routes g.URI with
        | none => simp [hl] at hkh
        | some m0 =>
          simp only [hl, Option.getD_some] at hkh
          exact (hinv g.URI m0 (lookup_mem _ _ _ hl)).2 k h hkh
      · simp only [Prod.mk.injEq] at hkh
        obtain ⟨hk, hh⟩ := hkh
        subst hk hh
        exact ⟨hg, rfl⟩

theorem registerGroup_stored (up : Char → Char) (declared : handler → Prop)
    (hs : List handler) :
    ∀ (routes T : GoMap (GoMap handler)), registerGroup up routes hs = .ok T →
      (∀ g ∈ hs, declared g) →
      (∀ u m, (u, m) ∈ routes →
        m ≠ [] ∧ ∀ k h, (k, h) ∈ m → declared h ∧ routeKey up h = (u, k)) →
      ∀ u m, (u, m) ∈ T →
        m ≠ [] ∧ ∀ k h, (k, h) ∈ m → declared h ∧ routeKey up h = (u, k) := by
  induction hs with
  | nil =>
    intro routes T hT _ hinv
    simp only [registerGroup, Except.ok.injEq] at hT
    subst hT
    exact hinv
  | cons g hs ih =>
    intro routes T hT hdecl hinv
    simp only [registerGroup] at hT
    cases hreg : register up routes g with
    | error p => simp [hreg] at hT
    | ok routes' =>
      simp only [hreg] at hT
      exact ih routes' T hT (fun h hh => hdecl h (List.mem_cons_of_mem _ hh))
        (register_stored up declared routes routes' g hreg
          (hdecl g (List.mem_cons_self _ _)) hinv)

/-- What a table built without panic holds: non-empty method maps, and under
the URI `u` and the key `k` only declared routes whose pair of keys is
`(u, k)`. -/
theorem NewServeMux_stored (up : Char → Char) (groups : List (List handler))
    (T : GoMap (GoMap handler)) (hT : NewServeMux up groups = .ok T) :
    ∀ u m, (u, m) ∈ T →
      m ≠ [] ∧ ∀ k h, (k, h) ∈ m → h ∈ groups.flatten ∧ routeKey up h = (u, k) := by
  rw [NewServeMux, registerGroups_eq_join] at hT
  exact registerGroup_stored up (fun h => h ∈ groups.flatten) groups.flatten [] T hT
    (fun g hg => hg) (by intro u m hm; simp at hm)

/-- C20. In a table `NewServeMux` has built without panic, every registered URI
maps to a non-empty method map, and every route `h` stored under the URI `u`
and the method key `k` has `h.URI = u` and uppercase(`h.Method`) `= k`, so that
every key is the upper-case form of a method, and `h` is one of the declared
routes, unmodified. -/
theorem NewServeMux_table_invariant (up : Char → Char) (groups : List (List handler))
    (T : GoMap (GoMap handler)) (hT : NewServeMux up groups = .ok T) :
    ∀ u m, (u, m) ∈ T →
      m ≠ [] ∧
        ∀ k h, (k, h) ∈ m → h.URI = u ∧ ToUpper up h.Method = k ∧ h ∈ groups.flatten := by
  intro u m hm
  have hinv := NewServeMux_stored up groups T hT u m hm
  refine ⟨hinv.1, ?_⟩
  intro k h hkh
  obtain ⟨hd, hkey⟩ := hinv.2 k h hkh
  simp only [routeKey, Prod.mk.injEq] at hkey
  exact ⟨hkey.1, hkey.2, hd⟩

/-- Witness for C20: the table of `get /x` and `POST /x`; the route declared
with `get` is stored under `GET` and keeps its `Method` in lower case. -/
theorem NewServeMux_table_invariant_witness :
    NewServeMux Char.toUpper [[getLowerX, postX]] =
        .ok [("/x".toList, [("GET".toList, getLowerX), ("POST".toList, postX)])] ∧
      ∀ u m, (u, m) ∈ [("/x".toList, [("GET".toList, getLowerX), ("POST".toList, postX)])] →
        m ≠ [] ∧
          ∀ k h, (k, h) ∈ m →
            h.URI = u ∧ ToUpper Char.toUpper h.Method = k ∧
              h ∈ [[getLowerX, postX]].flatten :=
  ⟨rfl, NewServeMux_table_invariant Char.toUpper [[getLowerX, postX]]
    [("/x".toList, [("GET".toList, getLowerX), ("POST".toList, postX)])] rfl⟩

/-! ## Dispatch on the request method -/

/-- C15, as the code has it. Dispatch matches on the request method as it is
received, without normalising it: in a table built by `NewServeMux`, if a
per-path method map `m` holds a route under the key equal to the non-empty
request method, `routeFunc(m)` runs exactly that route, whatever the iteration
order of the map. -/
theorem routeFunc_matches_method (up : Char → Char) (groups : List (List handler))
    (T : GoMap (GoMap handler)) (hT : NewServeMux up groups = .ok T)
    (uri : Str) (m : GoMap handler) (hm : (uri, m) ∈ T)
    (method : Str) (h : handler) (hl : lookup m method = some h) (hne : method ≠ [])
    (pick : Nat) :
    routeFunc.target m method pick = some h ∧
      ∀ auth x, x.r.Method = method → routeFunc auth m pick x = h.ServeHTTP auth x := by
  have hkey := ((NewServeMux_stored up groups T hT uri m hm).2 method h
    (lookup_mem m method h hl)).2
  simp only [routeKey, Prod.mk.injEq] at hkey
  have hmethod : h.Method ≠ [] := by
    intro he
    rw [he] at hkey
    exact hne hkey.2.symm
  have ht := target_of_lookup m method h pick hl hmethod
  refine ⟨ht, ?_⟩
  intro auth x hx
  simp [routeFunc, hx, ht]

/-- Witness for C15: a route registered for `GET`, next to one for `POST`,
and a request whose method is `GET`. -/
theorem routeFunc_matches_method_witness :
    (NewServeMux Char.toUpper [[getX, postX]] =
        .ok [("/x".toList, [("GET".toList, getX), ("POST".toList, postX)])] ∧
      lookup [("GET".toList, getX), ("POST".toList, postX)] "GET".toList = some getX ∧
      "GET".toList ≠ []) ∧
      routeFunc.target [("GET".toList, getX), ("POST".toList, postX)] "GET".toList 1 =
        some getX :=
  ⟨⟨rfl, rfl, by decide⟩,
    (routeFunc_matches_method Char.toUpper [[getX, postX]]
      [("/x".toList, [("GET".toList, getX), ("POST".toList, postX)])] rfl "/x".toList
      [("GET".toList, getX), ("POST".toList, postX)] (by simp) "GET".toList getX rfl
      (by decide) 1).1⟩

/-- Counterexample to C15 as stated: in the table of `GET /x` and `POST /x` the
map holds `getX` under uppercase(`get`), yet for the request method `get` the
function `routeFunc` can run `postX`; and in the table of a route without
method and `GET /x`, the map holds `anyMethod` under the empty key, yet for the
empty request method `routeFunc` can run `getX`. -/
theorem routeFunc_method_not_normalised :
    (NewServeMux Char.toUpper [[getX, postX]] =
        .ok [("/x".toList, [("GET".toList, getX), ("POST".toList, postX)])] ∧
      lookup [("GET".toList, getX), ("POST".toList, postX)]
        (ToUpper Char.toUpper "get".toList) = some getX ∧
      routeFunc.target [("GET".toList, getX), ("POST".toList, postX)] "get".toList 1 =
        some postX ∧
      postX.Action ≠ getX.Action) ∧
    (NewServeMux Char.toUpper [[anyMethod, getX]] =
        .ok [("/x".toList, [([], anyMethod), ("GET".toList, getX)])] ∧
      lookup [([], anyMethod), ("GET".toList, getX)] (ToUpper Char.toUpper []) =
        some anyMethod ∧
      routeFunc.target [([], anyMethod), ("GET".toList, getX)] [] 1 = some getX ∧
      getX.Action ≠ anyMethod.Action) :=
  ⟨⟨rfl, rfl, rfl, by decide⟩, ⟨rfl, rfl, rfl, by decide⟩⟩

/-! ## What the pipeline itself writes -/

/-- The run of `ServeHTTP` past the gate when `Params` is not empty, by the
outcome of `validate`. -/
theorem ServeHTTP_validated_run (auth : Exchange → Bool × Exchange) (h : handler)
    (x : Exchange) (hgate : h.Auth = false ∨ (auth x).1 = true) (hparams : h.Params ≠ []) :
    h.ServeHTTP auth x =
      match validate (h.Before.foldl (fun x m => m x) (if h.Auth then (auth x).2 else x)).r
          h.Params with
      | .error p => .error p
      | .ok (some e) =>
        .ok { calls := (if h.Auth then [Call.auth] else []) ++
                (List.range h.Before.length).map Call.before ++
                [Call.validate, Call.httpError e 400],
              x := { w := { sent :=
                       (h.Before.foldl (fun x m => m x)
                         (if h.Auth then (auth x).2 else x)).w.sent ++
                           [(400, e ++ ['\n'])] },
                     r := (h.Before.foldl (fun x m => m x)
                       (if h.Auth then (auth x).2 else x)).r } }
      | .ok none =>
        .ok { calls := (if h.Auth then [Call.auth] else []) ++
                (List.range h.Before.length).map Call.before ++ [Call.validate] ++
                [Call.Do] ++ (List.range h.After.length).map Call.after,
              x := h.After.foldl (fun x m => m x)
                (h.Do (h.Before.foldl (fun x m => m x)
                  (if h.Auth then (auth x).2 else x))) } := by
  have hlen : h.Params.length > 0 := List.length_pos.mpr hparams
  cases hA : h.Auth with
  | false =>
    simp only [handler.ServeHTTP, hA, runMiddlewares_eq, hlen, if_true, Bool.false_eq_true,
      if_false]
    cases validate (h.Before.foldl (fun x m => m x) x).r h.Params with
    | error p => simp
    | ok o =>
      cases o <;>
        simp [Run.httpError, httpError, StatusBadRequest, handler.serveDo, runMiddlewares_eq,
          pure, Except.pure, List.range_eq_range']
  | true =>
    have hok : (auth x).1 = true := by
      rcases hgate with hg | hg
      · simp [hA] at hg
      · exact hg
    simp only [handler.ServeHTTP, hA, hok, runMiddlewares_eq, hlen, if_true,
      Bool.true_eq_false, if_false]
    cases validate (h.Before.foldl (fun x m => m x) (auth x).2).r h.Params with
    | error p => simp
    | ok o =>
      cases o <;>
        simp [Run.httpError, httpError, StatusBadRequest, handler.serveDo, runMiddlewares_eq,
          pure, Except.pure, List.range_eq_range']

/-- The run of `ServeHTTP` when the gate refuses. -/
theorem ServeHTTP_refused_run (auth : Exchange → Bool × Exchange) (h : handler)
    (x : Exchange) (hAuth : h.Auth = true) (hfail : (auth x).1 = false) :
    h.ServeHTTP auth x =
      .ok { calls := [Call.auth, Call.httpError "Unauthorized Access".toList 401],
            x := { w := { sent :=
                     (auth x).2.w.sent ++ [(401, "Unauthorized Access\n".toList)] },
                   r := (auth x).2.r } } := by
  simp [handler.ServeHTTP, hAuth, hfail, Run.httpError, httpError, StatusUnauthorized, pure,
    Except.pure]

/-- C19. The pipeline replies itself only twice: in a run of `ServeHTTP`, every
call of `http.Error` is either the 401 `Unauthorized Access` of a refused auth
gate or the 400 that carries the error of `validate`. When the gate passes and
validation passes or is skipped, the run holds no call of `http.Error`, and
the exchange it leaves is the one the gate left, passed through every `Before`
middleware, `Do`, and every `After` middleware. -/
theorem ServeHTTP_writes_only_on_failure (auth : Exchange → Bool × Exchange) (h : handler)
    (x : Exchange) (run : Run) (hrun : h.ServeHTTP auth x = .ok run) :
    (∀ e code, Call.httpError e code ∈ run.calls →
        (code = 401 ∧ e = "Unauthorized Access".toList ∧ h.Auth = true ∧ (auth x).1 = false) ∨
        (code = 400 ∧ (h.Auth = false ∨ (auth x).1 = true) ∧ h.Params ≠ [] ∧
          validate (h.Before.foldl (fun x m => m x) (if h.Auth then (auth x).2 else x)).r
            h.Params = .ok (some e))) ∧
      ((h.Auth = false ∨ (auth x).1 = true) →
        (h.Params = [] ∨
          validate (h.Before.foldl (fun x m => m x) (if h.Auth then (auth x).2 else x)).r
            h.Params = .ok none) →
        (∀ e code, Call.httpError e code ∉ run.calls) ∧
          run.x = h.After.foldl (fun x m => m x)
            (h.Do (h.Before.foldl (fun x m => m x) (if h.Auth then (auth x).2 else x)))) := by
  by_cases hgate : h.Auth = false ∨ (auth x).1 = true
  · by_cases hp : h.Params = []
    · rw [ServeHTTP_serves_run auth h x hgate (Or.inl hp)] at hrun
      simp only [Except.ok.injEq] at hrun
      subst hrun
      have hno : ∀ e code, Call.httpError e code ∉
          ((if h.Auth then [Call.auth] else []) ++
            (List.range h.Before.length).map Call.before ++
            (if h.Params = [] then [] else [Call.validate]) ++ [Call.Do] ++
            (List.range h.After.length).map Call.after) := by
        intro e code
        cases h.Auth <;> simp [hp]
      exact ⟨fun e code hmem => absurd hmem (hno e code), fun _ _ => ⟨hno, rfl⟩⟩
    · rw [ServeHTTP_validated_run auth h x hgate hp] at hrun
      cases hv : validate (h.Before.foldl (fun x m => m x)
          (if h.Auth then (auth x).2 else x)).r h.Params with
      | error p => simp [hv] at hrun
      | ok o =>
        cases o with
        | some err =>
          simp only [hv, Except.ok.injEq] at hrun
          subst hrun
          constructor
          · intro e code hmem
            have : e = err ∧ code = 400 := by
              cases h.Auth <;> simpa using hmem
            exact Or.inr ⟨this.2, hgate, hp, by rw [this.1]⟩
          · intro _ hpass
            rcases hpass with hpass | hpass
            · exact absurd hpass hp
            · simp at hpass
        | none =>
          simp only [hv, Except.ok.injEq] at hrun
          subst hrun
          have hno : ∀ e code, Call.httpError e code ∉
              ((if h.Auth then [Call.auth] else []) ++
                (List.range h.Before.length).map Call.before ++ [Call.validate] ++
                [Call.Do] ++ (List.range h.After.length).map Call.after) := by
            intro e code
            cases h.Auth <;> simp
          exact ⟨fun e code hmem => absurd hmem (hno e code), fun _ _ => ⟨hno, rfl⟩⟩
  · have hA : h.Auth = true := by
      cases hh : h.Auth with
      | true => rfl
      | false => exact absurd (Or.inl hh) hgate
    have hfail : (auth x).1 = false := by
      cases hh : (auth x).1 with
      | false => rfl
      | true => exact absurd (Or.inr hh) hgate
    rw [ServeHTTP_refused_run auth h x hA hfail] at hrun
    simp only [Except.ok.injEq] at hrun
    subst hrun
    constructor
    · intro e code hmem
      have : e = "Unauthorized Access".toList ∧ code = 401 := by simpa using hmem
      exact Or.inl ⟨this.2, this.1, hA, hfail⟩
    · intro hpass
      exact absurd hpass hgate

/-- Witness for C19: the route `profile` with a value that passes `bio:max=5`;
the replies on the writer are those of its two `Before` middlewares, of `Do`
and of its `After` middleware. -/
theorem ServeHTTP_writes_only_on_failure_witness :
    ∃ run, profile.ServeHTTP allowAll (exchange "bio".toList "abc".toList) = .ok run ∧
      (∀ e code, Call.httpError e code ∉ run.calls) ∧
      run.x.w.sent = [(100, "first".toList), (100, "second".toList), (200, "saved".toList),
        (100, "last".toList)] :=
  ⟨_, rfl,
    ((ServeHTTP_writes_only_on_failure allowAll profile (exchange "bio".toList "abc".toList)
      _ rfl).2 (Or.inr rfl) (Or.inr (by decide))).1,
    by rw [((ServeHTTP_writes_only_on_failure allowAll profile
      (exchange "bio".toList "abc".toList) _ rfl).2 (Or.inr rfl) (Or.inr (by decide))).2]; rfl⟩

/-! ## strconv.Atoi against the integer literals -/

theorem atoiFast_nondigit (s : Str) (h : ∃ d ∈ s, isDigit d = false) :
    ∀ n, atoiFast n s = none := by
  induction s with
  | nil => simp at h
  | cons c cs ih =>
    intro n
    by_cases hc : isDigit c = true
    · have : ∃ d ∈ cs, isDigit d = false := by
        obtain ⟨d, hd, hdd⟩ := h
        rcases List.mem_cons.mp hd with rfl | hd
        · rw [hc] at hdd
          exact absurd hdd (by decide)
        · exact ⟨d, hd, hdd⟩
      simp [atoiFast, hc, ih this]
    · simp [atoiFast, hc]

theorem parseUintLoop_nondigit (s : Str) (h : ∃ d ∈ s, isDigit d = false) :
    ∀ n, parseUintLoop n s = (0, NumErr.badSyntax) ∨
      parseUintLoop n s = (maxUint64, NumErr.outOfRange) := by
  induction s with
  | nil => simp at h
  | cons c cs ih =>
    intro n
    by_cases hc : isDigit c = true
    · have : ∃ d ∈ cs, isDigit d = false := by
        obtain ⟨d, hd, hdd⟩ := h
        rcases List.mem_cons.mp hd with rfl | hd
        · rw [hc] at hdd
          exact absurd hdd (by decide)
        · exact ⟨d, hd, hdd⟩
      simp only [parseUintLoop, hc, if_true]
      by_cases h1 : n ≥ maxUint64 / 10 + 1
      · simp [h1]
      · by_cases h2 : n * 10 + (c.toNat - 48) > maxUint64
        · simp [h1, h2]
        · simp only [h1, h2, if_false]
          exact ih this _
    · simp [parseUintLoop, hc]

theorem all_digits_or_nondigit (s : Str) :
    (∀ c ∈ s, isDigit c = true) ∨ ∃ d ∈ s, isDigit d = false := by
  by_cases h : ∀ c ∈ s, isDigit c = true
  · exact Or.inl h
  · right
    simp only [not_forall] at h
    obtain ⟨d, hd, hdd⟩ := h
    exact ⟨d, hd, by simpa using hdd⟩

theorem ParseInt_cons (c : Char) (cs : Str) :
    ParseInt (c :: cs) =
      match ParseUint (unsigned (c :: cs)) with
      | (_, NumErr.badSyntax) => (0, NumErr.badSyntax)
      | (un, _) =>
        if ¬ c = '-' ∧ un ≥ 2 ^ 63 then (((2 ^ 63 - 1 : Nat) : Int), NumErr.outOfRange)
        else if c = '-' ∧ un > 2 ^ 63 then (-((2 ^ 63 : Nat) : Int), NumErr.outOfRange)
        else (if c = '-' then -(un : Int) else (un : Int), NumErr.none) := rfl

theorem Atoi_cons (c : Char) (cs : Str) :
    Atoi (c :: cs) =
      if 0 < len (c :: cs) ∧ len (c :: cs) < 19 then
        if unsigned (c :: cs) = [] then (0, NumErr.badSyntax)
        else
          match atoiFast 0 (unsigned (c :: cs)) with
          | none => (0, NumErr.badSyntax)
          | some n => (if c = '-' then -(n : Int) else (n : Int), NumErr.none)
      else ParseInt (c :: cs) := by
  have hor : (c = '-' ∨ c = '+') ↔ (c = '+' ∨ c = '-') := or_comm
  simp only [Atoi, unsigned, hor]

theorem ParseUint_of_ne_nil (s : Str) (h : s ≠ []) : ParseUint s = parseUintLoop 0 s := by
  cases s with
  | nil => exact absurd rfl h
  | cons c cs => rfl

theorem len_unsigned_le (c : Char) (cs : Str) : len (unsigned (c :: cs)) ≤ len (c :: cs) := by
  by_cases hc : c = '+' ∨ c = '-'
  · simp only [unsigned, hc, if_true, len]
    omega
  · simp only [unsigned, hc, if_false]
    exact Nat.le_refl _

/-- A text that is no integer literal: `Atoi` reports an error. -/
theorem Atoi_not_literal (s : Str) (h : intLiteral s = false) : (Atoi s).2 ≠ NumErr.none := by
  cases s with
  | nil => decide
  | cons c cs =>
    by_cases hb : unsigned (c :: cs) = []
    · have hcs : (c = '+' ∨ c = '-') ∧ cs = [] := by
        by_cases hc : c = '+' ∨ c = '-'
        · simp only [unsigned, hc, if_true] at hb
          exact ⟨hc, hb⟩
        · simp [unsigned, hc] at hb
      obtain ⟨hc, rfl⟩ := hcs
      rcases hc with rfl | rfl <;> decide
    · have hnd : ∃ d ∈ unsigned (c :: cs), isDigit d = false := by
        rcases all_digits_or_nondigit (unsigned (c :: cs)) with hall | hnd
        · have : intLiteral (c :: cs) = true := by
            simp only [intLiteral, Bool.and_eq_true, decide_eq_true_eq, List.all_eq_true]
            exact ⟨hb, hall⟩
          rw [this] at h
          exact absurd h (by decide)
        · exact hnd
      rw [Atoi_cons]
      split
      · simp [hb, atoiFast_nondigit _ hnd]
      · rw [ParseInt_cons, ParseUint_of_ne_nil _ hb]
        rcases parseUintLoop_nondigit _ hnd 0 with hl | hl
        · rw [hl]
          simp
        · rw [hl, maxUint64_eq, two_pow_63]
          by_cases hm : c = '-' <;> simp [hm]

/-- On an integer literal `Atoi` returns the integer it denotes when that lies
in the range of `int`, from `-2^63` to `2^63 - 1`; otherwise it returns the
nearest end of the range with a range error. -/
theorem Atoi_literal (s : Str) (h : intLiteral s = true) :
    Atoi s =
      if -9223372036854775808 ≤ intLiteralValue s ∧ intLiteralValue s < 9223372036854775808
      then (intLiteralValue s, NumErr.none)
      else (if intLiteralValue s < 0 then -9223372036854775808 else 9223372036854775807,
        NumErr.outOfRange) := by
  cases s with
  | nil => exact absurd h (by decide)
  | cons c cs =>
    simp only [intLiteral, Bool.and_eq_true, decide_eq_true_eq, List.all_eq_true] at h
    obtain ⟨hb, hd⟩ := h
    have hval : intLiteralValue (c :: cs) =
        if c = '-' then -((decValue 0 (unsigned (c :: cs)) : Nat) : Int)
        else ((decValue 0 (unsigned (c :: cs)) : Nat) : Int) := rfl
    have hslow : ParseInt (c :: cs) =
        if -9223372036854775808 ≤ intLiteralValue (c :: cs) ∧
            intLiteralValue (c :: cs) < 9223372036854775808
        then (intLiteralValue (c :: cs), NumErr.none)
        else (if intLiteralValue (c :: cs) < 0 then -9223372036854775808
          else 9223372036854775807, NumErr.outOfRange) := by
      rw [ParseInt_cons, ParseUint_of_ne_nil _ hb, hval, two_pow_63]
      by_cases hfit : decValue 0 (unsigned (c :: cs)) ≤ maxUint64
      · rw [parseUintLoop_fits _ hd 0 hfit]
        by_cases hm : c = '-'
        · subst hm
          simp only [if_true, not_true_eq_false, false_and, if_false, true_and]
          split_ifs <;> first | rfl | (exfalso; omega)
        · simp only [hm, if_false, not_false_eq_true, false_and, true_and]
          split_ifs <;> first | rfl | (exfalso; omega)
      · rw [parseUintLoop_overflow _ hd 0 (Nat.zero_le _) (by omega)]
        rw [maxUint64_eq] at hfit ⊢
        by_cases hm : c = '-'
        · subst hm
          simp only [if_true, not_true_eq_false, false_and, if_false, true_and]
          split_ifs <;> first | rfl | (exfalso; omega)
        · simp only [hm, if_false, not_false_eq_true, false_and, true_and]
          split_ifs <;> first | rfl | (exfalso; omega)
    rw [Atoi_cons]
    split
    · rename_i hlen
      have hle := len_unsigned_le c cs
      rw [len_digits _ hd] at hle
      have hlt := decValue_lt _ hd 0
      have hpow : 10 ^ (unsigned (c :: cs)).length ≤ 10 ^ 18 :=
        Nat.pow_le_pow_right (by decide) (by omega)
      have hsmall : decValue 0 (unsigned (c :: cs)) < 1000000000000000000 := by
        have : (10 : Nat) ^ 18 = 1000000000000000000 := by norm_num
        omega
      rw [hval]
      simp only [hb, if_false, atoiFast_digits _ hd]
      by_cases hm : c = '-'
      · subst hm
        simp only [if_true]
        split_ifs <;> first | rfl | (exfalso; omega)
      · simp only [hm, if_false]
        split_ifs <;> first | rfl | (exfalso; omega)
    · exact hslow

/-- A text shorter than 19 bytes that is no integer literal: `Atoi` returns 0
with a syntax error. -/
theorem Atoi_short_not_literal (s : Str) (hlen : len s < 19) (h : intLiteral s = false) :
    Atoi s = (0, NumErr.badSyntax) := by
  cases s with
  | nil => decide
  | cons c cs =>
    have hpos : 0 < len (c :: cs) := by
      have := Char.utf8Size_pos c
      simp only [len]
      omega
    rw [Atoi_cons, if_pos ⟨hpos, hlen⟩]
    by_cases hb : unsigned (c :: cs) = []
    · rw [if_pos hb]
    · rw [if_neg hb]
      have hnd : ∃ d ∈ unsigned (c :: cs), isDigit d = false := by
        rcases all_digits_or_nondigit (unsigned (c :: cs)) with hall | hnd
        · have : intLiteral (c :: cs) = true := by
            simp only [intLiteral, Bool.and_eq_true, decide_eq_true_eq, List.all_eq_true]
            exact ⟨hb, hall⟩
          rw [this] at h
          exact absurd h (by decide)
        · exact hnd
      rw [atoiFast_nondigit _ hnd]

/-- An integer literal holds no white space. -/
theorem intLiteral_no_space (s : Str) (h : intLiteral s = true) :
    ∀ c ∈ s, isSpace c = false := by
  have hdigit : ∀ c : Char, isDigit c = true → isSpace c = false := by
    intro c hc
    simp only [isDigit, Bool.and_eq_true, decide_eq_true_eq] at hc
    simp only [isSpace, Bool.or_eq_false_iff, decide_eq_false_iff_not, Bool.and_eq_false_imp,
      decide_eq_true_eq]
    omega
  cases s with
  | nil => simp
  | cons c cs =>
    simp only [intLiteral, Bool.and_eq_true, decide_eq_true_eq, List.all_eq_true] at h
    obtain ⟨_, hd⟩ := h
    by_cases hc : c = '+' ∨ c = '-'
    · simp only [unsigned, hc, if_true] at hd
      intro d hmem
      rcases List.mem_cons.mp hmem with rfl | hmem
      · rcases hc with rfl | rfl <;> decide
      · exact hdigit d (hd d hmem)
    · simp only [unsigned, hc, if_false] at hd
      exact fun d hmem => hdigit d (hd d hmem)

/-! ## validate: the numeric constraint -/

/-- The rule `<n>:numeric` on a non-empty value: the value passes when `Atoi`
reports no error. -/
theorem validate_numeric_rule (r : Request) (n : Str) (hform : r.ParseFormErr = none)
    (hn : ':' ∉ n) (hv : r.FormValue n ≠ []) :
    validate r [n ++ ":numeric".toList] =
      if (Atoi (r.FormValue n)).2 ≠ NumErr.none then
        .ok (some (n ++ " should be an integer string".toList))
      else .ok none := by
  have h1 : Split ':' (n ++ ":numeric".toList) = [n, "numeric".toList] := by
    have : n ++ ":numeric".toList = n ++ ':' :: "numeric".toList := by simp
    rw [this, Split_append_sep _ _ _ hn, Split_of_not_mem _ _ (by decide)]
  have h2 : Split ',' "numeric".toList = ["numeric".toList] := by decide
  have h3 : Split '=' "numeric".toList = ["numeric".toList] := by decide
  have e1 : "numeric".toList ≠ "max".toList := by decide
  have e2 : "numeric".toList ≠ "min".toList := by decide
  unfold validate
  rw [hform]
  simp only [validateParams_single, validateParam, h1, hv, false_and, if_false, h2,
    validateConstraints, validateConstraint, h3, e1, e2, if_true]
  split <;> (rename_i hq; exact hq.symm)

/-- C11, as the code has it. For a name without colon and a non-empty value,
the rule `<n>:numeric` returns `nil` exactly when the raw value is an integer
literal (an optional sign followed by one or more decimal digits) whose value
lies in the range of a 64-bit `int`, from `-2^63` to `2^63 - 1`; otherwise it
returns `<n> should be an integer string`. -/
theorem validate_numeric (r : Request) (n : Str) (hform : r.ParseFormErr = none)
    (hn : ':' ∉ n) (hv : r.FormValue n ≠ []) :
    validate r [n ++ ":numeric".toList] =
      if intLiteral (r.FormValue n) = true ∧
          -9223372036854775808 ≤ intLiteralValue (r.FormValue n) ∧
          intLiteralValue (r.FormValue n) < 9223372036854775808 then .ok none
      else .ok (some (n ++ " should be an integer string".toList)) := by
  rw [validate_numeric_rule r n hform hn hv]
  by_cases hlit : intLiteral (r.FormValue n) = true
  · rw [Atoi_literal _ hlit]
    by_cases hr : -9223372036854775808 ≤ intLiteralValue (r.FormValue n) ∧
        intLiteralValue (r.FormValue n) < 9223372036854775808
    · simp only [hr, and_self, if_true, hlit, ne_eq, not_true_eq_false, if_false]
    · simp only [hr, if_false, hlit, true_and, ne_eq]
      simp
  · have herr := Atoi_not_literal _ (by simpa using hlit)
    have hno : ¬ (intLiteral (r.FormValue n) = true ∧
        -9223372036854775808 ≤ intLiteralValue (r.FormValue n) ∧
        intLiteralValue (r.FormValue n) < 9223372036854775808) := fun hc => hlit hc.1
    rw [if_pos herr, if_neg hno]

/-- Witness for C11: `age:numeric` rejects `abc`. -/
theorem validate_numeric_witness :
    ((formRequest "age".toList "abc".toList).ParseFormErr = none ∧ ':' ∉ "age".toList ∧
      (formRequest "age".toList "abc".toList).FormValue "age".toList ≠ []) ∧
      validate (formRequest "age".toList "abc".toList) ["age:numeric".toList] =
        .ok (some "age should be an integer string".toList) :=
  ⟨⟨rfl, by decide, by decide⟩,
    validate_numeric (formRequest "age".toList "abc".toList) "age".toList rfl (by decide)
      (by decide)⟩

/-- Counterexample to C11 as stated: `9223372036854775808`, which is `2^63`, is
an integer literal, and `age:numeric` rejects it. -/
theorem validate_numeric_rejects_large :
    intLiteral "9223372036854775808".toList = true ∧
      validate (formRequest "age".toList "9223372036854775808".toList)
          ["age:numeric".toList] =
        .ok (some "age should be an integer string".toList) := by
  decide

/-! ## validate: a bound that is no number -/

/-- With a syntax error `Atoi` returns the value 0. -/
theorem Atoi_badSyntax_zero (s : Str) (h : (Atoi s).2 = NumErr.badSyntax) : (Atoi s).1 = 0 := by
  cases s with
  | nil => decide
  | cons c cs =>
    rw [Atoi_cons] at h ⊢
    split at h
    · rename_i hlen
      rw [if_pos hlen]
      split at h
      · rename_i hb
        rw [if_pos hb]
      · rename_i hb
        rw [if_neg hb]
        cases hf : atoiFast 0 (unsigned (c :: cs)) with
        | none => rfl
        | some v => simp [hf] at h
    · rename_i hlen
      rw [if_neg hlen]
      rw [ParseInt_cons] at h ⊢
      rcases hp : ParseUint (unsigned (c :: cs)) with ⟨un, e⟩
      rw [hp] at h
      cases e with
      | badSyntax => rfl
      | none =>
        exfalso
        simp only at h
        split_ifs at h
      | outOfRange =>
        exfalso
        simp only at h
        split_ifs at h

/-- C16, as the code has it. A bound text that `Atoi` rejects for its syntax is
read as 0: for a name without colon, such a bound `B` free of `:`, `,` and `=`,
and a non-empty value, the rule `<n>:min=B` returns `nil`, and the rule
`<n>:max=B` returns `nil` only when the trimmed value is empty, and otherwise
the error `<n> can't be more than B characters`. -/
theorem validate_malformed_bound (r : Request) (n B : Str) (hform : r.ParseFormErr = none)
    (hn : ':' ∉ n) (hB : ':' ∉ B ∧ ',' ∉ B ∧ '=' ∉ B)
    (hbad : (Atoi B).2 = NumErr.badSyntax) (hv : r.FormValue n ≠ []) :
    validate r [n ++ ":min=".toList ++ B] = .ok none ∧
      validate r [n ++ ":max=".toList ++ B] =
        if TrimSpace (r.FormValue n) = [] then .ok none
        else .ok (some (n ++ " can't be more than ".toList ++ B ++ " characters".toList)) := by
  have hzero := Atoi_badSyntax_zero B hbad
  constructor
  · rw [validate_min_rule r n B hform hn hB hv, hzero]
    have : ¬ ((len (TrimSpace (r.FormValue n)) : Nat) : Int) < 0 := by omega
    rw [if_neg this]
  · rw [validate_max_rule r n B hform hn hB hv, hzero]
    cases ht : TrimSpace (r.FormValue n) with
    | nil => simp [len]
    | cons c cs =>
      have hpos : 0 < c.utf8Size := Char.utf8Size_pos c
      have : ((len (c :: cs) : Nat) : Int) > 0 := by
        simp only [len]
        omega
      simp [this]

/-- Witness for C16: the bound `abc` with the value `hello`. -/
theorem validate_malformed_bound_witness :
    ((formRequest "bio".toList "hello".toList).ParseFormErr = none ∧ ':' ∉ "bio".toList ∧
      (':' ∉ "abc".toList ∧ ',' ∉ "abc".toList ∧ '=' ∉ "abc".toList) ∧
      (Atoi "abc".toList).2 = NumErr.badSyntax ∧
      (formRequest "bio".toList "hello".toList).FormValue "bio".toList ≠ []) ∧
      validate (formRequest "bio".toList "hello".toList) ["bio:min=abc".toList] = .ok none ∧
      validate (formRequest "bio".toList "hello".toList) ["bio:max=abc".toList] =
        .ok (some "bio can't be more than abc characters".toList) :=
  ⟨⟨rfl, by decide, by decide, by decide, by decide⟩,
    validate_malformed_bound (formRequest "bio".toList "hello".toList) "bio".toList
      "abc".toList rfl (by decide) (by decide) (by decide) (by decide)⟩

/-- Counterexample to C16 as stated: the bound `abc` does not parse as an
integer, and the rule `bio:max=abc` rejects the value `hello`. -/
theorem validate_max_malformed_bound_rejects :
    (Atoi "abc".toList).2 ≠ NumErr.none ∧
      validate (formRequest "bio".toList "hello".toList) ["bio:max=abc".toList] =
        .ok (some "bio can't be more than abc characters".toList) := by
  decide

/-! ## validate: lists of constraints -/

theorem Split_singleton (sep : Char) (s k : Str) (h : Split sep s = [k]) : k = s := by
  induction s generalizing k with
  | nil =>
    simp only [Split, List.cons.injEq, and_true] at h
    exact h.symm
  | cons c cs ih =>
    by_cases hc : c = sep
    · simp only [Split, hc, if_true, List.cons.injEq] at h
      exact absurd h.2 (Split_ne_nil sep cs)
    · simp only [Split, hc, if_false] at h
      cases hs : Split sep cs with
      | nil => exact absurd hs (Split_ne_nil sep cs)
      | cons f fs =>
        simp only [hs, List.cons.injEq] at h
        obtain ⟨hk, hfs⟩ := h
        subst hfs
        rw [← hk, ih f hs]

theorem not_mem_Join (sep x : Char) (hx : x ≠ sep) (cs : List Str)
    (h : ∀ c ∈ cs, x ∉ c) : x ∉ Join sep cs := by
  induction cs with
  | nil => simp [Join]
  | cons c rest ih =>
    cases rest with
    | nil => simpa [Join] using h c (List.mem_cons_self _ _)
    | cons d rest =>
      simp only [Join, List.mem_append, List.mem_cons, not_or]
      exact ⟨h c (List.mem_cons_self _ _), hx,
        ih (fun e he => h e (List.mem_cons_of_mem _ he))⟩

theorem Split_Join (sep : Char) (cs : List Str) (hne : cs ≠ [])
    (h : ∀ c ∈ cs, sep ∉ c) : Split sep (Join sep cs) = cs := by
  induction cs with
  | nil => exact absurd rfl hne
  | cons c rest ih =>
    cases rest with
    | nil => simpa [Join] using Split_of_not_mem sep c (h c (List.mem_cons_self _ _))
    | cons d rest =>
      simp only [Join]
      rw [Split_append_sep _ _ _ (h c (List.mem_cons_self _ _)),
        ih (by simp) (fun e he => h e (List.mem_cons_of_mem _ he))]

theorem validateConstraints_single (r : Request) (n c : Str) :
    validateConstraints r n [c] = validateConstraint r n c := by
  simp only [validateConstraints]
  cases validateConstraint r n c with
  | error p => rfl
  | ok o => cases o <;> rfl

theorem validateConstraint_nil (r : Request) (n : Str) :
    validateConstraint r n [] = .ok none := by
  have hs : Split '=' [] = [[]] := rfl
  have e1 : ([] : Str) ≠ "max".toList := by decide
  have e2 : ([] : Str) ≠ "min".toList := by decide
  have e3 : ([] : Str) ≠ "numeric".toList := by decide
  simp only [validateConstraint, hs, e1, e2, e3, if_false]

/-- The rule `<n>:c1,...,ck` on a non-empty value runs the constraints in
order. -/
theorem validate_constraints_rule (r : Request) (n : Str) (cs : List Str)
    (hform : r.ParseFormErr = none) (hn : ':' ∉ n) (hv : r.FormValue n ≠ [])
    (hcs : ∀ c ∈ cs, ',' ∉ c ∧ ':' ∉ c) :
    validate r [n ++ ':' :: Join ',' cs] = validateConstraints r n cs := by
  have hcolon : ':' ∉ Join ',' cs :=
    not_mem_Join ',' ':' (by decide) cs (fun c hc => (hcs c hc).2)
  have h1 : Split ':' (n ++ ':' :: Join ',' cs) = [n, Join ',' cs] := by
    rw [Split_append_sep _ _ _ hn, Split_of_not_mem _ _ hcolon]
  unfold validate
  rw [hform]
  simp only [validateParams_single, validateParam, h1, hv, false_and, if_false]
  cases cs with
  | nil =>
    have : Split ',' (Join ',' []) = [[]] := rfl
    rw [this, validateConstraints_single, validateConstraint_nil]
    rfl
  | cons c rest => rw [Split_Join ',' _ (by simp) (fun c hc => (hcs c hc).1)]

theorem validateConstraints_nil_iff (r : Request) (n : Str) (cs : List Str) :
    validateConstraints r n cs = .ok none ↔
      ∀ c ∈ cs, validateConstraint r n c = .ok none := by
  induction cs with
  | nil => simp [validateConstraints]
  | cons c rest ih =>
    simp only [validateConstraints, List.mem_cons, forall_eq_or_imp]
    cases hc : validateConstraint r n c with
    | error p => simp
    | ok o =>
      cases o with
      | some e => simp
      | none => simpa using ih

theorem validateConstraints_error (r : Request) (n : Str) (cs : List Str) (e : Str)
    (h : validateConstraints r n cs = .ok (some e)) :
    ∃ pre c post, cs = pre ++ c :: post ∧
      (∀ d ∈ pre, validateConstraint r n d = .ok none) ∧
      validateConstraint r n c = .ok (some e) := by
  induction cs with
  | nil => simp [validateConstraints] at h
  | cons c rest ih =>
    simp only [validateConstraints] at h
    cases hc : validateConstraint r n c with
    | error p => simp [hc] at h
    | ok o =>
      cases o with
      | some e' =>
        simp only [hc, Except.ok.injEq, Option.some.injEq] at h
        subst h
        exact ⟨[], c, rest, rfl, by simp, hc⟩
      | none =>
        simp only [hc] at h
        obtain ⟨pre, c', post, hcs, hpre, hc'⟩ := ih h
        refine ⟨c :: pre, c', post, by simp [hcs], ?_, hc'⟩
        intro d hd
        rcases List.mem_cons.mp hd with rfl | hd
        · exact hc
        · exact hpre d hd

theorem validateConstraint_returns (r : Request) (n c : Str)
    (hmax : c ≠ "max".toList) (hmin : c ≠ "min".toList) :
    ∃ o, validateConstraint r n c = .ok o := by
  unfold validateConstraint
  cases hs : Split '=' c with
  | nil => exact absurd hs (Split_ne_nil _ _)
  | cons key args =>
    simp only
    by_cases h1 : key = "max".toList
    · rw [if_pos h1]
      cases args with
      | nil => exact absurd (h1 ▸ (Split_singleton _ _ _ hs).symm) hmax
      | cons bound rest =>
        simp only
        split <;> exact ⟨_, rfl⟩
    · rw [if_neg h1]
      by_cases h2 : key = "min".toList
      · rw [if_pos h2]
        cases args with
        | nil => exact absurd (h2 ▸ (Split_singleton _ _ _ hs).symm) hmin
        | cons bound rest =>
          simp only
          split <;> exact ⟨_, rfl⟩
      · rw [if_neg h2]
        by_cases h3 : key = "numeric".toList
        · rw [if_pos h3]
          split <;> exact ⟨_, rfl⟩
        · rw [if_neg h3]
          exact ⟨_, rfl⟩

theorem validateConstraints_returns (r : Request) (n : Str) (cs : List Str)
    (h : ∀ c ∈ cs, c ≠ "max".toList ∧ c ≠ "min".toList) :
    ∃ o, validateConstraints r n cs = .ok o := by
  induction cs with
  | nil => exact ⟨none, rfl⟩
  | cons c rest ih =>
    obtain ⟨o, ho⟩ := validateConstraint_returns r n c
      (h c (List.mem_cons_self _ _)).1 (h c (List.mem_cons_self _ _)).2
    simp only [validateConstraints, ho]
    cases o with
    | some e => exact ⟨some e, rfl⟩
    | none => exact ih (fun d hd => h d (List.mem_cons_of_mem _ hd))

theorem validate_single_constraint (r : Request) (n c : Str)
    (hform : r.ParseFormErr = none) (hn : ':' ∉ n) (hv : r.FormValue n ≠ [])
    (hc : ',' ∉ c ∧ ':' ∉ c) :
    validate r [n ++ ':' :: c] = validateConstraint r n c := by
  have := validate_constraints_rule r n [c] hform hn hv (by simpa using hc)
  rw [validateConstraints_single] at this
  exact this

/-- C18. Constraints are cumulative: for a name without colon, a non-empty
value and constraints `c1,...,ck` (each free of `,` and `:`), the rule
`<n>:c1,...,ck` returns `nil` exactly when every rule `<n>:ci` returns `nil`;
when it returns an error, that error is the one of the leftmost `ci` whose
rule does not return `nil`; and when every `ci` is well formed (none is a bare
`max` or `min`), it returns `nil` or an error. -/
theorem validate_cumulative (r : Request) (n : Str) (cs : List Str)
    (hform : r.ParseFormErr = none) (hn : ':' ∉ n) (hv : r.FormValue n ≠ [])
    (hcs : ∀ c ∈ cs, ',' ∉ c ∧ ':' ∉ c) :
    (validate r [n ++ ':' :: Join ',' cs] = .ok none ↔
        ∀ c ∈ cs, validate r [n ++ ':' :: c] = .ok none) ∧
      (∀ e, validate r [n ++ ':' :: Join ',' cs] = .ok (some e) →
        ∃ pre c post, cs = pre ++ c :: post ∧
          (∀ d ∈ pre, validate r [n ++ ':' :: d] = .ok none) ∧
          validate r [n ++ ':' :: c] = .ok (some e)) ∧
      ((∀ c ∈ cs, c ≠ "max".toList ∧ c ≠ "min".toList) →
        ∃ o, validate r [n ++ ':' :: Join ',' cs] = .ok o) := by
  rw [validate_constraints_rule r n cs hform hn hv hcs]
  refine ⟨?_, ?_, ?_⟩
  · rw [validateConstraints_nil_iff]
    constructor
    · intro h c hc
      rw [validate_single_constraint r n c hform hn hv (hcs c hc)]
      exact h c hc
    · intro h c hc
      rw [← validate_single_constraint r n c hform hn hv (hcs c hc)]
      exact h c hc
  · intro e he
    obtain ⟨pre, c, post, hsplit, hpre, hc⟩ := validateConstraints_error r n cs e he
    refine ⟨pre, c, post, hsplit, ?_, ?_⟩
    · intro d hd
      rw [validate_single_constraint r n d hform hn hv (hcs d (by simp [hsplit, hd]))]
      exact hpre d hd
    · rw [validate_single_constraint r n c hform hn hv (hcs c (by simp [hsplit]))]
      exact hc
  · exact validateConstraints_returns r n cs

/-- Witness for C18: the constraints `numeric`, `max=3`, `min=2` on the value
`1234`; the error is the one of `max=3`. -/
theorem validate_cumulative_witness :
    ((formRequest "pin".toList "1234".toList).ParseFormErr = none ∧ ':' ∉ "pin".toList ∧
      (formRequest "pin".toList "1234".toList).FormValue "pin".toList ≠ [] ∧
      ∀ c ∈ ["numeric".toList, "max=3".toList, "min=2".toList], ',' ∉ c ∧ ':' ∉ c) ∧
      validate (formRequest "pin".toList "1234".toList) ["pin:numeric,max=3,min=2".toList] =
        .ok (some "pin can't be more than 3 characters".toList) ∧
      ∃ pre c post, ["numeric".toList, "max=3".toList, "min=2".toList] = pre ++ c :: post ∧
        (∀ d ∈ pre, validate (formRequest "pin".toList "1234".toList)
          ["pin".toList ++ ':' :: d] = .ok none) ∧
        validate (formRequest "pin".toList "1234".toList) ["pin".toList ++ ':' :: c] =
          .ok (some "pin can't be more than 3 characters".toList) :=
  ⟨⟨rfl, by decide, by decide, by decide⟩, by decide,
    (validate_cumulative (formRequest "pin".toList "1234".toList) "pin".toList
      ["numeric".toList, "max=3".toList, "min=2".toList] rfl (by decide) (by decide)
      (by decide)).2.1 _ (by decide)⟩

/-! ## validate: when it returns -/

theorem validateParam_returns (r : Request) (rule : Str)
    (h : ∀ name cs rest, Split ':' rule = name :: cs :: rest →
      ∀ c ∈ Split ',' cs, c ≠ "max".toList ∧ c ≠ "min".toList) :
    ∃ o, validateParam r rule = .ok o := by
  unfold validateParam
  split
  · rename_i hs
    exact absurd hs (Split_ne_nil _ _)
  · split <;> exact ⟨_, rfl⟩
  · rename_i name cs rest hs
    split
    · exact ⟨_, rfl⟩
    · exact validateConstraints_returns r name _ (h name cs rest hs)

/-- The only panic of `validate` is the index `vs[1]` of a bare `max` or `min`:
when no rule holds such a constraint in its constraint text, `validate`
returns `nil` or an error. -/
theorem validate_returns (r : Request) (rules : List Str)
    (h : ∀ rule ∈ rules, ∀ name cs rest, Split ':' rule = name :: cs :: rest →
      ∀ c ∈ Split ',' cs, c ≠ "max".toList ∧ c ≠ "min".toList) :
    ∃ o, validate r rules = .ok o := by
  unfold validate
  cases r.ParseFormErr with
  | some e => exact ⟨_, rfl⟩
  | none =>
    simp only
    induction rules with
    | nil => exact ⟨none, rfl⟩
    | cons rule rest ih =>
      obtain ⟨o, ho⟩ := validateParam_returns r rule (h rule (List.mem_cons_self _ _))
      simp only [validateParams, ho]
      cases o with
      | some e => exact ⟨some e, rfl⟩
      | none => exact ih (fun q hq => h q (List.mem_cons_of_mem _ hq))

/-! ## validate: unknown constraint keys -/

theorem validateConstraint_unknown (r : Request) (n key value c : Str)
    (hkey : '=' ∉ key)
    (hunknown : key ≠ "max".toList ∧ key ≠ "min".toList ∧ key ≠ "numeric".toList)
    (hc : c = key ∨ c = key ++ '=' :: value) :
    validateConstraint r n c = .ok none := by
  have hs : ∃ args, Split '=' c = key :: args := by
    rcases hc with rfl | rfl
    · exact ⟨[], Split_of_not_mem _ _ hkey⟩
    · exact ⟨_, Split_append_sep _ _ _ hkey⟩
  obtain ⟨args, hs⟩ := hs
  simp only [validateConstraint, hs, hunknown.1, hunknown.2.1, hunknown.2.2, if_false]

theorem validateConstraints_skip (r : Request) (n c : Str) (pre post : List Str)
    (hc : validateConstraint r n c = .ok none) :
    validateConstraints r n (pre ++ c :: post) = validateConstraints r n (pre ++ post) := by
  induction pre with
  | nil => simp [validateConstraints, hc]
  | cons d pre ih =>
    simp only [List.cons_append, validateConstraints]
    cases validateConstraint r n d with
    | error p => rfl
    | ok o =>
      cases o with
      | some e => rfl
      | none => exact ih

/-- C17. Unknown constraint keys are ignored: for a name without colon, a
non-empty value and a constraint `key` or `key=value` (free of `,` and `:`)
whose key is none of `max`, `min`, `numeric`, the rule `<n>:<constraint>`
returns `nil`, as the rule `<n>` does, and adding the constraint anywhere in
the constraint list of a rule `<n>:c1,...,ck` does not change the result of
`validate`. -/
theorem validate_ignores_unknown_key (r : Request) (n key value c : Str)
    (hform : r.ParseFormErr = none) (hn : ':' ∉ n) (hv : r.FormValue n ≠ [])
    (hkey : '=' ∉ key)
    (hunknown : key ≠ "max".toList ∧ key ≠ "min".toList ∧ key ≠ "numeric".toList)
    (hc : c = key ∨ c = key ++ '=' :: value) (hsep : ',' ∉ c ∧ ':' ∉ c) :
    validate r [n ++ ':' :: c] = .ok none ∧
      validate r [n] = .ok none ∧
      ∀ pre post, (∀ d ∈ pre ++ post, ',' ∉ d ∧ ':' ∉ d) →
        validate r [n ++ ':' :: Join ',' (pre ++ c :: post)] =
          validate r [n ++ ':' :: Join ',' (pre ++ post)] := by
  have hnil := validateConstraint_unknown r n key value c hkey hunknown hc
  refine ⟨?_, ?_, ?_⟩
  · rw [validate_single_constraint r n c hform hn hv hsep, hnil]
  · have h1 : Split ':' n = [n] := Split_of_not_mem _ _ hn
    unfold validate
    rw [hform]
    simp only [validateParams_single, validateParam, h1, hv, if_false]
  · intro pre post hall
    have hall' : ∀ d ∈ pre ++ c :: post, ',' ∉ d ∧ ':' ∉ d := by
      intro d hd
      rcases List.mem_append.mp hd with hd | hd
      · exact hall d (List.mem_append.mpr (Or.inl hd))
      · rcases List.mem_cons.mp hd with rfl | hd
        · exact hsep
        · exact hall d (List.mem_append.mpr (Or.inr hd))
    rw [validate_constraints_rule r n _ hform hn hv hall',
      validate_constraints_rule r n _ hform hn hv hall,
      validateConstraints_skip r n c pre post hnil]

/-- Witness for C17: the unknown constraint `len=4` alone and inside the list
`numeric,max=3` on the value `1234`. -/
theorem validate_ignores_unknown_key_witness :
    ((formRequest "pin".toList "1234".toList).ParseFormErr = none ∧ ':' ∉ "pin".toList ∧
      (formRequest "pin".toList "1234".toList).FormValue "pin".toList ≠ [] ∧
      '=' ∉ "len".toList ∧
      ("len".toList ≠ "max".toList ∧ "len".toList ≠ "min".toList ∧
        "len".toList ≠ "numeric".toList) ∧
      (',' ∉ "len=4".toList ∧ ':' ∉ "len=4".toList)) ∧
      validate (formRequest "pin".toList "1234".toList) ["pin:len=4".toList] = .ok none ∧
      validate (formRequest "pin".toList "1234".toList) ["pin:numeric,len=4,max=3".toList] =
        validate (formRequest "pin".toList "1234".toList) ["pin:numeric,max=3".toList] :=
  ⟨⟨rfl, by decide, by decide, by decide, by decide, by decide⟩,
    (validate_ignores_unknown_key (formRequest "pin".toList "1234".toList) "pin".toList
      "len".toList "4".toList "len=4".toList rfl (by decide) (by decide) (by decide)
      (by decide) (Or.inr rfl) (by decide)).1,
    (validate_ignores_unknown_key (formRequest "pin".toList "1234".toList) "pin".toList
      "len".toList "4".toList "len=4".toList rfl (by decide) (by decide) (by decide)
      (by decide) (Or.inr rfl) (by decide)).2.2 ["numeric".toList] ["max=3".toList]
      (by decide)⟩

end Handler
